import Mathlib

/-!
Shallow embedding of the MCML compiler core (mcml, Rust) and proofs about
the claims of its specification.

Conventions of the embedding:
* Rust `i64` becomes `Int`; `u32` indices become `Nat`.
* `HashSet` / `HashMap` values become lists without duplicates
  (association lists for maps); set operations are insertion-ordered.
  Where the Rust code *iterates* a hash container and the iteration order
  can influence the result, the order is taken as an explicit parameter
  (an "oracle"), because Rust's `RandomState` hashers are randomly seeded
  per process, so that order is not a function of the input.
* Rust panics (`panic!`, `todo!`, `unwrap`, `expect`, map-index panics)
  become the error channel of `Except String`, carrying the panic message.
-/

namespace MCML

/-- Variable of the compiler (`src/var.rs`): a numeric id plus an optional
display name, compared by both fields (the Rust `PartialEq` derive). -/
structure Var where
  id : Nat
  name : Option String
deriving DecidableEq, Repr

/-- Association-list lookup, the embedding of `HashMap` keyed access.
The most recent insertion is found first. -/
def look {α β : Type} [DecidableEq α] : List (α × β) → α → Option β
  | [], _ => none
  | p :: rest, a => if p.1 = a then some p.2 else look rest a

/-! ## Graph coloring (`src/assign_homes/color_graph.rs`) -/

/-- Interference graph (`build_interference.rs`): nodes are variables,
edges are unordered pairs stored once (petgraph `update_edge` on an
undirected graph never duplicates an edge). -/
structure IGraph where
  nodes : List Var
  edges : List (Var × Var)
deriving DecidableEq, Repr

/-- Move graph interface (`build_move.rs`): `move_related` is containment
of the unordered pair in the edge set. -/
structure MGraph where
  edges : List (Var × Var)
deriving DecidableEq, Repr

/-- Membership of the unordered pair `{a, b}` in an undirected edge list. -/
def undirected_mem (es : List (Var × Var)) (a b : Var) : Bool :=
  decide ((a, b) ∈ es) || decide ((b, a) ∈ es)

/-- The test `move_graph.move_related(a, b)` of `build_move.rs`. -/
def MGraph.move_related (mg : MGraph) (a b : Var) : Bool :=
  undirected_mem mg.edges a b

/-- Neighbors of `v` in the undirected interference graph, as petgraph's
`neighbors` reports them for an undirected graph (both orientations). -/
def IGraph.neighbors (g : IGraph) (v : Var) : List Var :=
  g.edges.filterMap fun e =>
    if e.1 = v then some e.2 else if e.2 = v then some e.1 else none

/-- Coloring map: the `HashMap<Var, Color>` of `color_graph.rs` as an
association list; keys are inserted at most once. -/
abbrev CMap := List (Var × Nat)

/-- The colors of the already-colored interference neighbors of the node
(`find_conflicting_colors`). Duplicates are irrelevant: only membership
and the count of *distinct* entries are consumed. -/
def find_conflicting_colors (g : IGraph) (cm : CMap) (v : Var) : List Nat :=
  (g.neighbors v).filterMap (look cm)

/-- The colors of the already-colored move-related variables
(`find_move_related_colors`), enumerated in the order the coloring map
lists them. The Rust function iterates `color_map.keys()` and collects
into a `HashSet<Color>`; this list is one enumeration of that set, and
every theorem that depends on the enumeration order quantifies over it
separately (`find_least_color_with`). -/
def find_move_related_colors (mg : MGraph) (cm : CMap) (v : Var) : List Nat :=
  ((cm.filter fun p => mg.move_related v p.1).map (·.2)).dedup

/-- The `while conflicts.contains(&color) { color += 1 }` loop of
`find_least_color`, with explicit fuel. With fuel `max conflicts + 1`
starting from 0 it returns the least natural number not in `conflicts`. -/
def least_from (conflicts : List Nat) : Nat → Nat → Nat
  | 0, c => c
  | fuel + 1, c => if c ∈ conflicts then least_from conflicts fuel (c + 1) else c

/-- Largest element of a list of naturals (0 for the empty list). -/
def max_of (l : List Nat) : Nat := l.foldr max 0

/-- Body of `find_least_color`, parameterized by the enumeration order
`pref` of the move-related color set: return the first `c ∈ pref` with
`c ∉ conflicts`, else count up from 0 past the conflicting colors. -/
def find_least_color_with (pref : List Nat) (g : IGraph) (cm : CMap) (v : Var) : Nat :=
  match pref.find? (fun c => decide (c ∉ find_conflicting_colors g cm v)) with
  | some c => c
  | none => least_from (find_conflicting_colors g cm v)
      (max_of (find_conflicting_colors g cm v) + 1) 0

/-- `find_least_color` with the canonical enumeration of the preferred
set (the order the coloring map lists the move-related variables). -/
def find_least_color (g : IGraph) (mg : MGraph) (cm : CMap) (v : Var) : Nat :=
  find_least_color_with (find_move_related_colors mg cm v) g cm v

/-- The coloring loop of `color_graph`, processing the nodes in the order
`pops` in which the keyed priority queue pops them, with the enumeration
of each node's preferred color set supplied by `prefO`. A popped node
already colored is skipped (the `!color_map.contains_key` guard). -/
def color_graph_list (prefO : Var → CMap → List Nat) (g : IGraph) :
    List Var → CMap → CMap
  | [], cm => cm
  | v :: rest, cm =>
    if (look cm v).isSome then color_graph_list prefO g rest cm
    else color_graph_list prefO g rest
      ((v, find_least_color_with (prefO v cm) g cm v) :: cm)

/-- Saturation of an uncolored node: the number of distinct colors among
its colored interference neighbors (`saturation` in `color_graph.rs`). -/
def saturation_of (g : IGraph) (cm : CMap) (v : Var) : Nat :=
  (find_conflicting_colors g cm v).dedup.length

/-- Move saturation of an uncolored node: the number of colored
move-related variables that are not interference neighbors
(`update_move_saturation` increments it once per such coloring event). -/
def move_saturation_of (g : IGraph) (mg : MGraph) (cm : CMap) (v : Var) : Nat :=
  ((cm.map (·.1)).filter fun m =>
    mg.move_related v m && !(undirected_mem g.edges v m)).length

/-- Lexicographic priority comparison: `a` strictly below `b`
(the `Ord` instance on `Priority`, saturation first). -/
def prio_lt (a b : Nat × Nat) : Bool :=
  decide (a.1 < b.1) || (decide (a.1 = b.1) && decide (a.2 < b.2))

/-- Validity of a pop sequence for the keyed priority queue: the sequence
is a permutation of the node set, and each popped node's priority is
maximal among the nodes still in the queue. The binary heap pops *some*
maximal element; which one depends on the heap's internal layout, which
in turn depends on the (randomly seeded) iteration order of the
`HashSet<Var>` the nodes were collected into. -/
def pops_valid_from (g : IGraph) (mg : MGraph) : List Var → CMap → Bool
  | [], _ => true
  | v :: rest, cm =>
    let pv := (saturation_of g cm v, move_saturation_of g mg cm v)
    rest.all (fun w =>
      !(prio_lt pv (saturation_of g cm w, move_saturation_of g mg cm w))) &&
    pops_valid_from g mg rest ((v, find_least_color g mg cm v) :: cm)

/-- A pop order is realizable when it is a permutation of the nodes and
respects the priority queue at every step. -/
def pops_valid (g : IGraph) (mg : MGraph) (pops : List Var) : Bool :=
  decide (pops.Perm g.nodes) && pops_valid_from g mg pops []

/-- `color_graph` itself: run the loop over a realizable pop order with
the canonical preferred-color enumeration; reject unrealizable orders. -/
def color_graph (g : IGraph) (mg : MGraph) (pops : List Var) : Option CMap :=
  if pops_valid g mg pops then
    some (color_graph_list (fun v cm => find_move_related_colors mg cm v) g pops [])
  else none

/-! ## Surface AST (`src/parse.rs` output) and uniquify (`src/uniquify.rs`) -/

/-- Expression as the parser delivers it, over surface name strings. -/
inductive PExpr where
  | litBool (b : Bool)
  | litInt (i : Int)
  | variable_ (name : String)
  | plus (left right : PExpr)
  | minus (left right : PExpr)
  | times (left right : PExpr)
  | divide (left right : PExpr)
  | ifE (cond thn els : PExpr)
  | eq (left right : PExpr)
deriving DecidableEq, Repr

/-- Statement as the parser delivers it. -/
inductive PStmt where
  | assert (expr : PExpr)
  | assertEq (left right : PExpr)
  | command (text : String)
  | letS (variable_name : String) (expr : PExpr)
deriving DecidableEq, Repr

/-- Definition as the parser delivers it: a named test. -/
structure PDef where
  name : String
  stmts : List PStmt
deriving DecidableEq, Repr

/-- Expression after uniquify: names replaced by `Var`s. -/
inductive UExpr where
  | litBool (b : Bool)
  | litInt (i : Int)
  | variable_ (v : Var)
  | plus (left right : UExpr)
  | minus (left right : UExpr)
  | times (left right : UExpr)
  | divide (left right : UExpr)
  | ifE (cond thn els : UExpr)
  | eq (left right : UExpr)
deriving DecidableEq, Repr

/-- Statement after uniquify. -/
inductive UStmt where
  | assert (expr : UExpr)
  | assertEq (left right : UExpr)
  | command (text : String)
  | letS (v : Var) (expr : UExpr)
deriving DecidableEq, Repr

/-- Definition after uniquify. -/
structure UDef where
  name : String
  stmts : List UStmt
deriving DecidableEq, Repr

/-- Name environment of uniquify: `HashMap<String, Var>` with insertion
as shadowing prepend, so lookup finds the most recent binding. -/
abbrev UEnv := List (String × Var)

/-- `uniquify_expr`. An unbound variable reference is `env[&name]`, the
`Index` impl of `HashMap`, which panics with the std message
"no entry found for key" — a message that does not mention the key. -/
def uniquify_expr (env : UEnv) : PExpr → Except String UExpr
  | .litBool b => pure (.litBool b)
  | .litInt i => pure (.litInt i)
  | .variable_ name =>
    match look env name with
    | some v => pure (.variable_ v)
    | none => .error "no entry found for key"
  | .plus l r => do pure (.plus (← uniquify_expr env l) (← uniquify_expr env r))
  | .minus l r => do pure (.minus (← uniquify_expr env l) (← uniquify_expr env r))
  | .times l r => do pure (.times (← uniquify_expr env l) (← uniquify_expr env r))
  | .divide l r => do pure (.divide (← uniquify_expr env l) (← uniquify_expr env r))
  | .ifE c t e => do
    pure (.ifE (← uniquify_expr env c) (← uniquify_expr env t) (← uniquify_expr env e))
  | .eq l r => do pure (.eq (← uniquify_expr env l) (← uniquify_expr env r))

/-- Statement loop of `uniquify_test`, threading the environment and the
variable factory (`next_var_id`). -/
def uniquify_stmts (env : UEnv) (vf : Nat) :
    List PStmt → Except String (List UStmt × Nat)
  | [] => pure ([], vf)
  | stmt :: rest => do
    match stmt with
    | .assert e => do
      let e' ← uniquify_expr env e
      let (rest', vf') ← uniquify_stmts env vf rest
      pure (.assert e' :: rest', vf')
    | .assertEq l r => do
      let l' ← uniquify_expr env l
      let r' ← uniquify_expr env r
      let (rest', vf') ← uniquify_stmts env vf rest
      pure (.assertEq l' r' :: rest', vf')
    | .command text => do
      let (rest', vf') ← uniquify_stmts env vf rest
      pure (.command text :: rest', vf')
    | .letS name e => do
      let e' ← uniquify_expr env e
      let v : Var := ⟨vf, some name⟩
      let (rest', vf') ← uniquify_stmts ((name, v) :: env) (vf + 1) rest
      pure (.letS v e' :: rest', vf')

/-- `uniquify` over the definition list, threading the factory. -/
def uniquify_defs (vf : Nat) : List PDef → Except String (List UDef × Nat)
  | [] => pure ([], vf)
  | d :: rest => do
    let (stmts', vf₁) ← uniquify_stmts [] vf d.stmts
    let (rest', vf₂) ← uniquify_defs vf₁ rest
    pure (⟨d.name, stmts'⟩ :: rest', vf₂)

/-- `uniquify`: fresh ids start at 0 (`VarFactory::new`). -/
def uniquify (defs : List PDef) : Except String (List UDef × Nat) :=
  uniquify_defs 0 defs

/-! ## Desugar asserts (`src/desugar_asserts.rs`) -/

mutual
/-- Expression after desugaring: adds unit literals and statement bundles. -/
inductive DExpr where
  | litUnit
  | litBool (b : Bool)
  | litInt (i : Int)
  | variable_ (v : Var)
  | plus (left right : DExpr)
  | minus (left right : DExpr)
  | times (left right : DExpr)
  | divide (left right : DExpr)
  | ifE (cond thn els : DExpr)
  | eq (left right : DExpr)
  | bundle (stmts : List DStmt) (expr : DExpr)
deriving Repr

/-- Statement after desugaring: asserts are gone, TAP emissions appear. -/
inductive DStmt where
  | expr (e : DExpr)
  | command (text : String)
  | letS (v : Var) (e : DExpr)
  | tellOk (test_name : String)
  | tellNotOk (test_name : String)
deriving Repr
end

/-- Definition after desugaring. -/
structure DDef where
  name : String
  stmts : List DStmt
deriving Repr

/-- `desugar_asserts_expr`: structure-preserving translation. -/
def desugar_asserts_expr : UExpr → DExpr
  | .litBool b => .litBool b
  | .litInt i => .litInt i
  | .variable_ v => .variable_ v
  | .plus l r => .plus (desugar_asserts_expr l) (desugar_asserts_expr r)
  | .minus l r => .minus (desugar_asserts_expr l) (desugar_asserts_expr r)
  | .times l r => .times (desugar_asserts_expr l) (desugar_asserts_expr r)
  | .divide l r => .divide (desugar_asserts_expr l) (desugar_asserts_expr r)
  | .ifE c t e =>
    .ifE (desugar_asserts_expr c) (desugar_asserts_expr t) (desugar_asserts_expr e)
  | .eq l r => .eq (desugar_asserts_expr l) (desugar_asserts_expr r)

/-- `desugar_asserts_stmts`: one statement against its continuation. -/
def desugar_asserts_stmts (test_name : String) (stmt : UStmt)
    (continuation : List DStmt) : List DStmt :=
  match stmt with
  | .assert e =>
    [.expr (.ifE (desugar_asserts_expr e)
      (.bundle continuation .litUnit)
      (.bundle [.tellNotOk test_name] .litUnit))]
  | .assertEq l r =>
    [.expr (.ifE (.eq (desugar_asserts_expr l) (desugar_asserts_expr r))
      (.bundle continuation .litUnit)
      (.bundle [.tellNotOk test_name] .litUnit))]
  | .command text => .command text :: continuation
  | .letS v e => .letS v (desugar_asserts_expr e) :: continuation

/-- `desugar_asserts_def`: fold the statements from the back onto the
final `TellOk`. -/
def desugar_asserts_def (d : UDef) : DDef :=
  ⟨d.name, d.stmts.foldr (desugar_asserts_stmts d.name) [.tellOk d.name]⟩

/-- `desugar_asserts` over the program (the factory passes through). -/
def desugar_asserts (p : List UDef × Nat) : List DDef × Nat :=
  (p.1.map desugar_asserts_def, p.2)

/-! ## Linearize (`src/linearize.rs`) -/

/-- Atom of the linearized IR. -/
inductive LAtom where
  | varA (v : Var)
  | litUnit
  | litInt (i : Int)
  | litBool (b : Bool)
deriving DecidableEq, Repr

/-- Binary operator of the linearized IR. -/
inductive LOp where
  | plus
  | minus
  | times
  | divide
deriving DecidableEq, Repr

/-- Comparison of the linearized IR (only equality exists). -/
inductive LCmp where
  | eqC
deriving DecidableEq, Repr

/-- Jump condition: a comparison of two atoms or a bare atom. -/
inductive LCond where
  | cmp (c : LCmp) (left right : LAtom)
  | atm (a : LAtom)
deriving DecidableEq, Repr

/-- Edge label of the linearized CFG. -/
inductive LJmp where
  | unconditional
  | ifJ (c : LCond)
  | unlessJ (c : LCond)
deriving DecidableEq, Repr

/-- Flat expression of a linearized statement. -/
inductive LExpr where
  | atom (a : LAtom)
  | binary (op : LOp) (left right : LAtom)
  | cmp (c : LCmp) (left right : LAtom)
deriving DecidableEq, Repr

/-- Three-address statement of a block. -/
inductive LStmt where
  | assign (v : Var) (e : LExpr)
  | tellOk (test_name : String)
  | tellNotOk (test_name : String)
  | command (text : String)
deriving DecidableEq, Repr

/-- CFG edge: source node, target node, label. petgraph stores edges in
insertion order; `edges_directed(.., Outgoing)` iterates them newest
first. -/
abbrev LEdge := Nat × Nat × LJmp

/-- Test record: display name and entry node of its block graph. -/
structure Test where
  name : String
  block : Nat
deriving DecidableEq, Repr

/-- Ghost record of one `If`-expression lowering: the branching block at
the moment the two conditional edges were attached, the condition, the
branch entry and final blocks, and the join block. The log does not feed
back into the computation; it only names the events the specification's
CFG-shape claims quantify over. -/
structure IfEvent where
  branch : Nat
  cond : LCond
  thn_entry : Nat
  els_entry : Nat
  thn_final : Nat
  els_final : Nat
  join : Nat
deriving DecidableEq, Repr

/-- State threaded through linearization: the growing block graph, the
variable factory counter, and the ghost If-event log. -/
structure LinState where
  blocks : List (List LStmt)
  edges : List LEdge
  vf : Nat
  log : List IfEvent
deriving Repr

/-- `Graph::add_node`: append an empty block, return its index. -/
def add_node (st : LinState) : LinState × Nat :=
  ({ st with blocks := st.blocks ++ [[]] }, st.blocks.length)

/-- Append a statement to the block at `i` (`node_weight_mut(..).stmts.push`). -/
def append_stmt (st : LinState) (i : Nat) (s : LStmt) : LinState :=
  { st with blocks := st.blocks.set i (st.blocks.getD i [] ++ [s]) }

/-- `Graph::add_edge`: append an edge record. -/
def add_edge (st : LinState) (src tgt : Nat) (j : LJmp) : LinState :=
  { st with edges := st.edges ++ [(src, tgt, j)] }

/-- `var_factory.tmp()`: a fresh unnamed variable. -/
def fresh_tmp (st : LinState) : LinState × Var :=
  ({ st with vf := st.vf + 1 }, ⟨st.vf, none⟩)

/-- Non-recursive tail of the `If` lowering: create the join block,
attach the two `Unconditional` edges, record the ghost event, and hand
the join back as the current block with the result atom. -/
def linearize_if_tail (st : LinState) (cur : Nat) (cond : LCond) (v : Var)
    (thn_entry els_entry cur_t cur_e : Nat) : LinState × Nat × LAtom :=
  let (st₁, join) := add_node st
  let st₂ := add_edge st₁ cur_t join .unconditional
  let st₃ := add_edge st₂ cur_e join .unconditional
  let st₄ := { st₃ with log := st₃.log ++
    [⟨cur, cond, thn_entry, els_entry, cur_t, cur_e, join⟩] }
  (st₄, join, .varA v)

mutual

/-- `linearize_stmt`: lower one statement into the current block. -/
def linearize_stmt (st : LinState) (cur : Nat) : DStmt → LinState × Nat
  | .expr e =>
    let (st₁, cur₁, _) := linearize_expr st cur e
    (st₁, cur₁)
  | .tellOk n => (append_stmt st cur (.tellOk n), cur)
  | .tellNotOk n => (append_stmt st cur (.tellNotOk n), cur)
  | .command t => (append_stmt st cur (.command t), cur)
  | .letS v e =>
    let (st₁, cur₁, a) := linearize_expr st cur e
    (append_stmt st₁ cur₁ (.assign v (.atom a)), cur₁)

/-- The statement loop of `linearize_stmts`. -/
def linearize_stmts (st : LinState) (cur : Nat) : List DStmt → LinState × Nat
  | [] => (st, cur)
  | s :: rest =>
    let (st₁, cur₁) := linearize_stmt st cur s
    linearize_stmts st₁ cur₁ rest

/-- `linearize_expr`. The binary and comparison helpers of the source
(`linearize_binary`, `linearize_cmp`, `linearize_branch`) are inlined,
and the non-recursive tail of the `If` case is `linearize_if_tail`. -/
def linearize_expr (st : LinState) (cur : Nat) : DExpr → LinState × Nat × LAtom
  | .litUnit => (st, cur, .litUnit)
  | .bundle stmts e =>
    let (st₁, cur₁) := linearize_stmts st cur stmts
    linearize_expr st₁ cur₁ e
  | .litBool b => (st, cur, .litBool b)
  | .litInt i => (st, cur, .litInt i)
  | .variable_ x => (st, cur, .varA x)
  | .plus l r =>
    let (st₁, cur₁, la) := linearize_expr st cur l
    let (st₂, cur₂, ra) := linearize_expr st₁ cur₁ r
    let (st₃, v) := fresh_tmp st₂
    (append_stmt st₃ cur₂ (.assign v (.binary .plus la ra)), cur₂, .varA v)
  | .minus l r =>
    let (st₁, cur₁, la) := linearize_expr st cur l
    let (st₂, cur₂, ra) := linearize_expr st₁ cur₁ r
    let (st₃, v) := fresh_tmp st₂
    (append_stmt st₃ cur₂ (.assign v (.binary .minus la ra)), cur₂, .varA v)
  | .times l r =>
    let (st₁, cur₁, la) := linearize_expr st cur l
    let (st₂, cur₂, ra) := linearize_expr st₁ cur₁ r
    let (st₃, v) := fresh_tmp st₂
    (append_stmt st₃ cur₂ (.assign v (.binary .times la ra)), cur₂, .varA v)
  | .divide l r =>
    let (st₁, cur₁, la) := linearize_expr st cur l
    let (st₂, cur₂, ra) := linearize_expr st₁ cur₁ r
    let (st₃, v) := fresh_tmp st₂
    (append_stmt st₃ cur₂ (.assign v (.binary .divide la ra)), cur₂, .varA v)
  | .eq l r =>
    let (st₁, cur₁, la) := linearize_expr st cur l
    let (st₂, cur₂, ra) := linearize_expr st₁ cur₁ r
    let (st₃, v) := fresh_tmp st₂
    (append_stmt st₃ cur₂ (.assign v (.cmp .eqC la ra)), cur₂, .varA v)
  | .ifE cond thn els =>
    let lowered :=
      match cond with
      | .eq l r =>
        let (st₁, cur₁, la) := linearize_expr st cur l
        let (st₂, cur₂, ra) := linearize_expr st₁ cur₁ r
        (st₂, cur₂, LCond.cmp .eqC la ra)
      | c =>
        let (st₁, cur₁, a) := linearize_expr st cur c
        (st₁, cur₁, LCond.atm a)
    let (st₂, cur₂, lcond) := lowered
    let (st₃, v) := fresh_tmp st₂
    let (st₄, thn_entry) := add_node st₃
    let st₅ := add_edge st₄ cur₂ thn_entry (.ifJ lcond)
    let (st₆, cur_t, ta) := linearize_expr st₅ thn_entry thn
    let st₇ := append_stmt st₆ cur_t (.assign v (.atom ta))
    let (st₈, els_entry) := add_node st₇
    let st₉ := add_edge st₈ cur₂ els_entry (.unlessJ lcond)
    let (st₁₀, cur_e, ea) := linearize_expr st₉ els_entry els
    let st₁₁ := append_stmt st₁₀ cur_e (.assign v (.atom ea))
    linearize_if_tail st₁₁ cur₂ lcond v thn_entry els_entry cur_t cur_e

end

/-- Program after linearization. `log` is the ghost If-event record. -/
structure LProgram where
  blocks : List (List LStmt)
  edges : List LEdge
  tests : List Test
  vf : Nat
  log : List IfEvent
deriving Repr

/-- `linearize_stmts` entry of the source: allocate the `begin` block and
lower the test's statements into it. Returns the entry index. -/
def linearize_test (st : LinState) (stmts : List DStmt) : LinState × Nat :=
  let (st₁, bgn) := add_node st
  let (st₂, _) := linearize_stmts st₁ bgn stmts
  (st₂, bgn)

/-- Definition loop of `linearize`. -/
def linearize_defs (st : LinState) : List DDef → LinState × List Test
  | [] => (st, [])
  | d :: rest =>
    let (st₁, bgn) := linearize_test st d.stmts
    let (st₂, tests) := linearize_defs st₁ rest
    (st₂, ⟨d.name, bgn⟩ :: tests)

/-- `linearize`: run over all definitions starting from the empty graph,
threading the variable factory from desugaring. -/
def linearize (p : List DDef × Nat) : LProgram :=
  let (st, tests) := linearize_defs ⟨[], [], p.2, []⟩ p.1
  ⟨st.blocks, st.edges, tests, st.vf, st.log⟩

/-- Outgoing edges of node `n` in insertion order, for a graph whose
edge records are (source, target, label) triples. -/
def edges_from {γ : Type} (edges : List (Nat × Nat × γ)) (n : Nat) :
    List (Nat × Nat × γ) :=
  edges.filter fun e => e.1 = n

/-! ## Select instructions (`src/select_instructions.rs`) -/

/-- Target operation kinds. -/
inductive Op where
  | equals
  | plusEquals
  | minusEquals
  | timesEquals
  | divideEquals
deriving DecidableEq, Repr

/-- Target-flavored instruction over variables. -/
inductive SInstr where
  | set (v : Var) (value : Int)
  | operation (op : Op) (source destination : Var)
  | tellraw (text : String)
  | command (text : String)
  | executeIfScoreMatchesSet (v : Var) (value : Int) (set_var : Var) (set_value : Int)
  | executeUnlessScoreMatchesSet (v : Var) (value : Int) (set_var : Var) (set_value : Int)
  | executeIfScoreEqualsSet (a b : Var) (set_var : Var) (set_value : Int)
  | executeUnlessScoreEqualsSet (a b : Var) (set_var : Var) (set_value : Int)
deriving DecidableEq, Repr

/-- Target-flavored jump label over variables. -/
inductive SJmp where
  | executeIfScoreMatchesFunction (v : Var) (value : Int) (block : Nat)
  | executeUnlessScoreMatchesFunction (v : Var) (value : Int) (block : Nat)
  | executeIfScoreEqualsFunction (a b : Var) (block : Nat)
  | executeUnlessScoreEqualsFunction (a b : Var) (block : Nat)
  | function (block : Nat)
deriving DecidableEq, Repr

/-- Program after instruction selection. -/
structure SProgram where
  blocks : List (List SInstr)
  edges : List (Nat × Nat × SJmp)
  tests : List Test
deriving DecidableEq, Repr

/-- `op_assign`. -/
def op_assign : LOp → Op
  | .plus => .plusEquals
  | .minus => .minusEquals
  | .times => .timesEquals
  | .divide => .divideEquals

/-- `select_instructions_jmp`: rewrite an edge label; `none` deletes the
edge (petgraph `filter_map`). The uncovered pattern combinations panic
with "Type error!". -/
def select_instructions_jmp (jmp : LJmp) (block : Nat) :
    Except String (Option SJmp) :=
  match jmp with
  | .unconditional => pure (some (.function block))
  | .ifJ (.atm (.litBool b)) =>
    pure (if b then some (.function block) else none)
  | .ifJ (.atm (.varA v)) =>
    pure (some (.executeIfScoreMatchesFunction v 1 block))
  | .ifJ (.cmp .eqC (.litBool a) (.litBool b)) =>
    pure (if a = b then some (.function block) else none)
  | .ifJ (.cmp .eqC (.litInt a) (.litInt b)) =>
    pure (if a = b then some (.function block) else none)
  | .ifJ (.cmp .eqC (.varA v) (.litBool b)) =>
    pure (some (.executeIfScoreMatchesFunction v (if b then 1 else 0) block))
  | .ifJ (.cmp .eqC (.litBool b) (.varA v)) =>
    pure (some (.executeIfScoreMatchesFunction v (if b then 1 else 0) block))
  | .ifJ (.cmp .eqC (.varA v) (.litInt i)) =>
    pure (some (.executeIfScoreMatchesFunction v i block))
  | .ifJ (.cmp .eqC (.litInt i) (.varA v)) =>
    pure (some (.executeIfScoreMatchesFunction v i block))
  | .ifJ (.cmp .eqC (.varA l) (.varA r)) =>
    pure (some (.executeIfScoreEqualsFunction l r block))
  | .ifJ _ => .error "Type error!"
  | .unlessJ (.atm (.litBool b)) =>
    pure (if !b then some (.function block) else none)
  | .unlessJ (.atm (.varA v)) =>
    pure (some (.executeUnlessScoreMatchesFunction v 1 block))
  | .unlessJ (.cmp .eqC (.litBool a) (.litBool b)) =>
    pure (if a ≠ b then some (.function block) else none)
  | .unlessJ (.cmp .eqC (.litInt a) (.litInt b)) =>
    pure (if a ≠ b then some (.function block) else none)
  | .unlessJ (.cmp .eqC (.varA v) (.litBool b)) =>
    pure (some (.executeUnlessScoreMatchesFunction v (if b then 1 else 0) block))
  | .unlessJ (.cmp .eqC (.litBool b) (.varA v)) =>
    pure (some (.executeUnlessScoreMatchesFunction v (if b then 1 else 0) block))
  | .unlessJ (.cmp .eqC (.varA v) (.litInt i)) =>
    pure (some (.executeUnlessScoreMatchesFunction v i block))
  | .unlessJ (.cmp .eqC (.litInt i) (.varA v)) =>
    pure (some (.executeUnlessScoreMatchesFunction v i block))
  | .unlessJ (.cmp .eqC (.varA l) (.varA r)) =>
    pure (some (.executeUnlessScoreEqualsFunction l r block))
  | .unlessJ _ => .error "Type error!"

/-- `select_instructions_stmt`: lower one three-address statement,
threading the variable factory. Unit operands of arithmetic or
comparison panic. -/
def select_instructions_stmt (stmt : LStmt) (vf : Nat) :
    Except String (List SInstr × Nat) :=
  match stmt with
  | .tellOk test_name => pure ([.tellraw ("ok - " ++ test_name)], vf)
  | .tellNotOk test_name => pure ([.tellraw ("not ok - " ++ test_name)], vf)
  | .assign _ (.atom .litUnit) => pure ([], vf)
  | .assign v (.atom (.litInt value)) => pure ([.set v value], vf)
  | .assign v (.atom (.litBool value)) =>
    pure ([.set v (if value then 1 else 0)], vf)
  | .assign destination (.atom (.varA source)) =>
    pure ([.operation .equals source destination], vf)
  | .assign v (.cmp .eqC left right) =>
    match left, right with
    | .litInt l, .litInt r => pure ([.set v (if l = r then 1 else 0)], vf)
    | .litBool l, .litBool r => pure ([.set v (if l = r then 1 else 0)], vf)
    | .varA w, .litInt i =>
      pure ([.executeIfScoreMatchesSet w i v 1,
             .executeUnlessScoreMatchesSet w i v 0], vf)
    | .litInt i, .varA w =>
      pure ([.executeIfScoreMatchesSet w i v 1,
             .executeUnlessScoreMatchesSet w i v 0], vf)
    | .varA w, .litBool b =>
      pure ([.executeIfScoreMatchesSet w (if b then 1 else 0) v 1,
             .executeUnlessScoreMatchesSet w (if b then 1 else 0) v 0], vf)
    | .litBool b, .varA w =>
      pure ([.executeIfScoreMatchesSet w (if b then 1 else 0) v 1,
             .executeUnlessScoreMatchesSet w (if b then 1 else 0) v 0], vf)
    | .varA l, .varA r =>
      pure ([.executeIfScoreEqualsSet l r v 1,
             .executeUnlessScoreEqualsSet l r v 0], vf)
    | _, _ => .error "explicit panic"
  | .assign v (.binary op left right) => do
    let first ← match left with
      | .litUnit => .error "Type error! Tried to add with unit"
      | .litInt value => pure (SInstr.set v value)
      | .litBool value => pure (SInstr.set v (if value then 1 else 0))
      | .varA l => pure (SInstr.operation .equals l v)
    match right with
    | .litUnit => .error "Type error! Tried to add with unit"
    | .litInt value =>
      let tmp : Var := ⟨vf, none⟩
      pure ([first, .set tmp value, .operation (op_assign op) tmp v], vf + 1)
    | .litBool value =>
      let tmp : Var := ⟨vf, none⟩
      pure ([first, .set tmp (if value then 1 else 0),
             .operation (op_assign op) tmp v], vf + 1)
    | .varA r => pure ([first, .operation (op_assign op) r v], vf)
  | .command text => pure ([.command text], vf)

/-- Block loop of `select_instructions_block`. -/
def select_instructions_block (stmts : List LStmt) (vf : Nat) :
    Except String (List SInstr × Nat) :=
  match stmts with
  | [] => pure ([], vf)
  | s :: rest => do
    let (is₁, vf₁) ← select_instructions_stmt s vf
    let (is₂, vf₂) ← select_instructions_block rest vf₁
    pure (is₁ ++ is₂, vf₂)

/-- Node loop of `select_instructions` (petgraph `filter_map` visits the
nodes in index order; the variable factory is threaded through the node
closure). -/
def select_instructions_blocks (blocks : List (List LStmt)) (vf : Nat) :
    Except String (List (List SInstr) × Nat) :=
  match blocks with
  | [] => pure ([], vf)
  | b :: rest => do
    let (is, vf₁) ← select_instructions_block b vf
    let (bs, vf₂) ← select_instructions_blocks rest vf₁
    pure (is :: bs, vf₂)

/-- Edge loop of `select_instructions` (petgraph `filter_map` visits the
edges in index order and drops those mapped to `None`). -/
def select_instructions_edges :
    List LEdge → Except String (List (Nat × Nat × SJmp))
  | [] => pure []
  | (src, tgt, j) :: rest => do
    let j' ← select_instructions_jmp j tgt
    let rest' ← select_instructions_edges rest
    match j' with
    | some sj => pure ((src, tgt, sj) :: rest')
    | none => pure rest'

/-- `select_instructions`. -/
def select_instructions (p : LProgram) : Except String SProgram := do
  let (blocks, _) ← select_instructions_blocks p.blocks p.vf
  let edges ← select_instructions_edges p.edges
  pure ⟨blocks, edges, p.tests⟩

/-! ## Assign homes (`src/assign_homes.rs` and its submodules) -/

/-- Set difference on variable lists (`HashSet::difference`). -/
def set_diff (l s : List Var) : List Var := l.filter (· ∉ s)

/-- Set union on variable lists (`HashSet::union` / repeated `insert`):
keep `l`, then the members of `s` not already present. -/
def set_union (l s : List Var) : List Var := l ++ s.filter (· ∉ l)

/-- `write_set` (`src/assign_homes.rs`). -/
def write_set : SInstr → List Var
  | .set v _ => [v]
  | .operation _ _ d => [d]
  | .tellraw _ => []
  | .command _ => []
  | .executeIfScoreMatchesSet _ _ sv _ => [sv]
  | .executeUnlessScoreMatchesSet _ _ sv _ => [sv]
  | .executeIfScoreEqualsSet _ _ sv _ => [sv]
  | .executeUnlessScoreEqualsSet _ _ sv _ => [sv]

/-- `read_set` (`src/assign_homes.rs`); `HashSet::from` deduplicates. -/
def read_set : SInstr → List Var
  | .set _ _ => []
  | .operation .equals s _ => [s]
  | .operation _ s d => if s = d then [s] else [s, d]
  | .tellraw _ => []
  | .command _ => []
  | .executeIfScoreMatchesSet v _ _ _ => [v]
  | .executeUnlessScoreMatchesSet v _ _ _ => [v]
  | .executeIfScoreEqualsSet a b _ _ => if a = b then [a] else [a, b]
  | .executeUnlessScoreEqualsSet a b _ _ => if a = b then [a] else [a, b]

/-- Instruction annotated with its live-after set
(`uncover_live::AnnotatedInstruction`). -/
structure AnnInstr where
  instr : SInstr
  live_after : List Var
deriving DecidableEq, Repr

/-- Annotated block: the Rust loop pushes the annotations while walking
the instructions in reverse, and never re-reverses, so `instrs` here
holds the *last* original instruction first. -/
structure ABlock where
  instrs : List AnnInstr
  live_before : List Var
deriving DecidableEq, Repr

/-- Program annotated by the live-variable analysis. The select-level
edges are kept alongside (petgraph drops the labels to `()` but the
analysis itself reads them from the input graph). -/
structure AnnProgram where
  blocks : List ABlock
  edges : List (Nat × Nat × SJmp)
  tests : List Test
deriving DecidableEq, Repr

/-- `uncover_live_before`: `L_before = (L_after - W) ∪ R`. -/
def uncover_live_before (instr : SInstr) (live_after : List Var) : List Var :=
  set_union (set_diff live_after (write_set instr)) (read_set instr)

/-- Reverse walk of `uncover_live_block`, over the already-reversed
instruction list: annotate with the running live-after set and step it
through `uncover_live_before`. -/
def uncover_live_go : List SInstr → List Var → List AnnInstr × List Var
  | [], l => ([], l)
  | i :: rest, l =>
    let (acc, fin) := uncover_live_go rest (uncover_live_before i l)
    (⟨i, l⟩ :: acc, fin)

/-- `uncover_live_block`. -/
def uncover_live_block (instrs : List SInstr) (live_after : List Var) : ABlock :=
  let (anns, lb) := uncover_live_go instrs.reverse live_after
  ⟨anns, lb⟩

/-- Variables a jump guard reads. -/
def read_jmp : SJmp → List Var
  | .executeIfScoreMatchesFunction v _ _ => [v]
  | .executeUnlessScoreMatchesFunction v _ _ => [v]
  | .executeIfScoreEqualsFunction a b _ => if a = b then [a] else [a, b]
  | .executeUnlessScoreEqualsFunction a b _ => if a = b then [a] else [a, b]
  | .function _ => []

/-- Target block of a jump label. -/
def jmp_block : SJmp → Nat
  | .executeIfScoreMatchesFunction _ _ b => b
  | .executeUnlessScoreMatchesFunction _ _ b => b
  | .executeIfScoreEqualsFunction _ _ b => b
  | .executeUnlessScoreEqualsFunction _ _ b => b
  | .function b => b

/-- Panic helper: a missing value aborts with the given message. -/
def opanic {α : Type} (msg : String) : Option α → Except String α
  | some a => pure a
  | none => .error msg

/-- `uncover_live_before_jmp`: the target's live-before set plus the
guard's reads; looking up an unprocessed target is the `HashMap` index
panic of `annotated_blocks[&block]`. -/
def uncover_live_before_jmp (j : SJmp) (m : List (Nat × ABlock)) :
    Except String (List Var) := do
  let ab ← opanic "no entry found for key" (look m (jmp_block j))
  pure (set_union ab.live_before (read_jmp j))

/-- Live-after set at a block's exit: fold the out-edges, inserting each
jump's live-before variables. -/
def exit_live_after (edges : List (Nat × Nat × SJmp)) (m : List (Nat × ABlock))
    (b : Nat) : Except String (List Var) :=
  (edges_from edges b).foldlM
    (fun acc e => do pure (set_union acc (← uncover_live_before_jmp e.2.2 m))) []

/-- Block loop of `uncover_live`, processing the blocks in the order the
reversed toposort delivers them. -/
def uncover_live_aux (g : SProgram) :
    List Nat → List (Nat × ABlock) → Except String (List (Nat × ABlock))
  | [], m => pure m
  | b :: rest, m => do
    let la ← exit_live_after g.edges m b
    let bl ← opanic "node weight missing" g.blocks[b]?
    uncover_live_aux g rest ((b, uncover_live_block bl la) :: m)

/-- `uncover_live`, with the processing order (the reversed result of
`petgraph::algo::toposort`) supplied as an oracle; an order that is not
a permutation of the node indices is rejected, which models the
toposort contract (and its `unwrap` on cyclic graphs). -/
def uncover_live (order : List Nat) (g : SProgram) : Except String AnnProgram := do
  if order.Perm (List.range g.blocks.length) then
    let m ← uncover_live_aux g order []
    let blocks ← (List.range g.blocks.length).mapM
      (fun i => opanic "no entry found for key" (look m i))
    pure ⟨blocks, g.edges, g.tests⟩
  else .error "toposort order not realizable"

/-- Modelled from the spec: the nodes of the move graph. The shipped
`build_move.rs::collect_vars_instr` pattern-matches instruction variants
(`ExecuteIfScoreMatches { instr, .. }` and friends) that do not exist in
`select_instructions::Instruction`, so the variable collection for the
move graph does not compile as given; spec §5b says the move graph is
"pure bookkeeping: no variable is excluded", so every variable of the
program is a node and `move_related` is total on them. Only the edge set
(from `build_move_instr`, which is valid code) feeds the coloring. -/
def build_move (p : SProgram) : MGraph :=
  ⟨p.blocks.foldl (fun es bl => bl.foldl (fun es i =>
    match i with
    | .operation .equals s d => es ++ [(s, d)]
    | _ => es) es) []⟩

/-- Insert a variable into the collection if absent. -/
def add_var (vs : List Var) (v : Var) : List Var :=
  if v ∈ vs then vs else vs ++ [v]

/-- `build_interference.rs::collect_vars_instr`. -/
def collect_vars_instr (vs : List Var) : SInstr → List Var
  | .set v _ => add_var vs v
  | .operation _ s d => add_var (add_var vs s) d
  | .tellraw _ => vs
  | .command _ => vs
  | .executeIfScoreMatchesSet v _ sv _ => add_var (add_var vs v) sv
  | .executeUnlessScoreMatchesSet v _ sv _ => add_var (add_var vs v) sv
  | .executeIfScoreEqualsSet a b sv _ => add_var (add_var (add_var vs a) b) sv
  | .executeUnlessScoreEqualsSet a b sv _ => add_var (add_var (add_var vs a) b) sv

/-- `build_interference.rs::collect_vars` over the annotated blocks. -/
def collect_vars (blocks : List ABlock) : List Var :=
  blocks.foldl (fun vs b => b.instrs.foldl (fun vs ai => collect_vars_instr vs ai.instr) vs) []

/-- `InterferenceGraph::add_edge` (petgraph `update_edge`: no duplicate
edge between the same pair). -/
def ig_add_edge (es : List (Var × Var)) (a b : Var) : List (Var × Var) :=
  if undirected_mem es a b then es else es ++ [(a, b)]

/-- `build_interference_instr`: a pure move omits its source (and its
destination) from the edges added against the live-after set; any other
instruction interferes each written variable with the live-after set. -/
def build_interference_instr (es : List (Var × Var)) (ai : AnnInstr) :
    List (Var × Var) :=
  match ai.instr with
  | .operation .equals s d =>
    ai.live_after.foldl (fun es x => if x ≠ d ∧ x ≠ s then ig_add_edge es d x else es) es
  | _ =>
    (write_set ai.instr).foldl (fun es d =>
      ai.live_after.foldl (fun es x => if x ≠ d then ig_add_edge es d x else es) es) es

/-- `build_interference`. -/
def build_interference (p : AnnProgram) : IGraph :=
  ⟨collect_vars p.blocks,
   p.blocks.foldl (fun es b => b.instrs.foldl build_interference_instr es) []⟩

/-- Physical registers (`assign_homes::Register`). -/
inductive Register where
  | r1 | r2 | r3 | r4 | r5 | r6 | r7 | r8
  | e1 | e2 | e3 | e4 | e5 | e6 | e7 | e8
deriving DecidableEq, Repr

/-- Location: a register or a stack slot (`assign_homes::Location`). -/
inductive Location where
  | register (r : Register)
  | stack (offset : Nat)
deriving DecidableEq, Repr

/-- `Location::from_color`: colors 0–15 are the registers in order,
color `n ≥ 16` is stack offset `n − 15`. -/
def from_color : Nat → Location
  | 0 => .register .r1
  | 1 => .register .r2
  | 2 => .register .r3
  | 3 => .register .r4
  | 4 => .register .r5
  | 5 => .register .r6
  | 6 => .register .r7
  | 7 => .register .r8
  | 8 => .register .e1
  | 9 => .register .e2
  | 10 => .register .e3
  | 11 => .register .e4
  | 12 => .register .e5
  | 13 => .register .e6
  | 14 => .register .e7
  | 15 => .register .e8
  | n => .stack (n - 15)

/-- `Register::to_color`. -/
def to_color : Register → Nat
  | .r1 => 0 | .r2 => 1 | .r3 => 2 | .r4 => 3
  | .r5 => 4 | .r6 => 5 | .r7 => 6 | .r8 => 7
  | .e1 => 8 | .e2 => 9 | .e3 => 10 | .e4 => 11
  | .e5 => 12 | .e6 => 13 | .e7 => 14 | .e8 => 15

/-- Instruction after home assignment (`assign_homes::Instruction`). -/
inductive AInstr where
  | set (location : Location) (value : Int)
  | operation (op : Op) (source destination : Location)
  | tellraw (text : String)
  | command (text : String)
  | executeIfScoreMatchesSet (location : Location) (value : Int)
      (set_location : Location) (set_value : Int)
  | executeUnlessScoreMatchesSet (location : Location) (value : Int)
      (set_location : Location) (set_value : Int)
  | executeIfScoreEqualsSet (a b : Location) (set_location : Location) (set_value : Int)
  | executeUnlessScoreEqualsSet (a b : Location) (set_location : Location) (set_value : Int)
deriving DecidableEq, Repr

/-- Jump label after home assignment (`assign_homes::Jmp`). -/
inductive AJmp where
  | executeIfScoreMatchesFunction (location : Location) (value : Int) (block : Nat)
  | executeUnlessScoreMatchesFunction (location : Location) (value : Int) (block : Nat)
  | executeIfScoreEqualsFunction (a b : Location) (block : Nat)
  | executeUnlessScoreEqualsFunction (a b : Location) (block : Nat)
  | function (block : Nat)
deriving DecidableEq, Repr

/-- Program after home assignment. -/
structure AProgram where
  blocks : List (List AInstr)
  edges : List (Nat × Nat × AJmp)
  tests : List Test
deriving DecidableEq, Repr

/-- `location_map[&var]`: the `HashMap` index panic when a variable got
no home. -/
def loc_of (lm : List (Var × Location)) (v : Var) : Except String Location :=
  opanic "no entry found for key" (look lm v)

/-- `assign_homes_instr`. -/
def assign_homes_instr (lm : List (Var × Location)) : SInstr → Except String AInstr
  | .set v value => do pure (.set (← loc_of lm v) value)
  | .operation op s d => do pure (.operation op (← loc_of lm s) (← loc_of lm d))
  | .tellraw text => pure (.tellraw text)
  | .command text => pure (.command text)
  | .executeIfScoreMatchesSet v value sv svalue => do
    pure (.executeIfScoreMatchesSet (← loc_of lm v) value (← loc_of lm sv) svalue)
  | .executeUnlessScoreMatchesSet v value sv svalue => do
    pure (.executeUnlessScoreMatchesSet (← loc_of lm v) value (← loc_of lm sv) svalue)
  | .executeIfScoreEqualsSet a b sv svalue => do
    pure (.executeIfScoreEqualsSet (← loc_of lm a) (← loc_of lm b) (← loc_of lm sv) svalue)
  | .executeUnlessScoreEqualsSet a b sv svalue => do
    pure (.executeUnlessScoreEqualsSet (← loc_of lm a) (← loc_of lm b) (← loc_of lm sv) svalue)

/-- `assign_homes_jmp`. -/
def assign_homes_jmp (lm : List (Var × Location)) : SJmp → Except String AJmp
  | .executeIfScoreMatchesFunction v value b => do
    pure (.executeIfScoreMatchesFunction (← loc_of lm v) value b)
  | .executeUnlessScoreMatchesFunction v value b => do
    pure (.executeUnlessScoreMatchesFunction (← loc_of lm v) value b)
  | .executeIfScoreEqualsFunction a c b => do
    pure (.executeIfScoreEqualsFunction (← loc_of lm a) (← loc_of lm c) b)
  | .executeUnlessScoreEqualsFunction a c b => do
    pure (.executeUnlessScoreEqualsFunction (← loc_of lm a) (← loc_of lm c) b)
  | .function b => pure (.function b)

/-- Iteration-order oracles of the allocator: the block processing order
of the live analysis (the reversed toposort) and the pop order of the
coloring queue. -/
structure Oracles where
  topo : List Nat
  pops : List Var
deriving DecidableEq, Repr

/-- `assign_homes`: move graph, liveness, interference, coloring,
color-to-location rewrite. -/
def assign_homes (O : Oracles) (p : SProgram) : Except String AProgram := do
  let mg := build_move p
  let ap ← uncover_live O.topo p
  let g := build_interference ap
  let cm ← opanic "pop order not realizable" (color_graph g mg O.pops)
  let lm := cm.map fun q => (q.1, from_color q.2)
  let blocks ← p.blocks.mapM (·.mapM (assign_homes_instr lm))
  let edges ← p.edges.mapM fun e => do
    pure (e.1, e.2.1, ← assign_homes_jmp lm e.2.2)
  pure ⟨blocks, edges, p.tests⟩

/-! ## Insert jumps (`src/insert_jmps.rs`) -/

/-- Payload of a guarded instruction (`insert_jmps::Run`). -/
inductive IRun where
  | function (block : Nat)
  | set (location : Location) (value : Int)
deriving DecidableEq, Repr

/-- Instruction after jump insertion (`insert_jmps::Instruction`). -/
inductive IInstr where
  | set (location : Location) (value : Int)
  | operation (op : Op) (source destination : Location)
  | tellraw (text : String)
  | command (text : String)
  | executeIfScoreMatches (location : Location) (value : Int) (run : IRun)
  | executeUnlessScoreMatches (location : Location) (value : Int) (run : IRun)
  | executeIfScoreEquals (a b : Location) (run : IRun)
  | executeUnlessScoreEquals (a b : Location) (run : IRun)
  | function (block : Nat)
deriving DecidableEq, Repr

/-- Program after jump insertion: edge labels are dropped to `()`; only
the endpoints remain in the graph. -/
structure IProgram where
  blocks : List (List IInstr)
  edges : List (Nat × Nat)
  tests : List Test
deriving DecidableEq, Repr

/-- `insert_jmps_instr`. -/
def insert_jmps_instr : AInstr → IInstr
  | .set l v => .set l v
  | .operation op s d => .operation op s d
  | .tellraw t => .tellraw t
  | .command t => .command t
  | .executeIfScoreMatchesSet l v sl sv => .executeIfScoreMatches l v (.set sl sv)
  | .executeUnlessScoreMatchesSet l v sl sv => .executeUnlessScoreMatches l v (.set sl sv)
  | .executeIfScoreEqualsSet a b sl sv => .executeIfScoreEquals a b (.set sl sv)
  | .executeUnlessScoreEqualsSet a b sl sv => .executeUnlessScoreEquals a b (.set sl sv)

/-- `insert_jmps_jmp`. -/
def insert_jmps_jmp : AJmp → IInstr
  | .executeIfScoreMatchesFunction l v b => .executeIfScoreMatches l v (.function b)
  | .executeUnlessScoreMatchesFunction l v b => .executeUnlessScoreMatches l v (.function b)
  | .executeIfScoreEqualsFunction a c b => .executeIfScoreEquals a c (.function b)
  | .executeUnlessScoreEqualsFunction a c b => .executeUnlessScoreEquals a c (.function b)
  | .function b => .function b

/-- `insert_jmps_block`: body instructions, then one jump per outgoing
edge, in the order `edges_directed(.., Outgoing)` yields them — newest
inserted first. -/
def insert_jmps_block (idx : Nat) (instrs : List AInstr)
    (edges : List (Nat × Nat × AJmp)) : List IInstr :=
  instrs.map insert_jmps_instr ++
    ((edges_from edges idx).reverse.map fun e => insert_jmps_jmp e.2.2)

/-- `insert_jmps`. -/
def insert_jmps (p : AProgram) : IProgram :=
  ⟨(List.range p.blocks.length).map fun i =>
      insert_jmps_block i (p.blocks.getD i []) p.edges,
   p.edges.map fun e => (e.1, e.2.1),
   p.tests⟩

/-! ## Reify locations (`src/reify_locations.rs`) -/

/-- Location after reification: no stack slots remain by construction of
the type (`reify_locations::Location`). -/
inductive RLocation where
  | register (r : Register)
  | stackItem
  | scratch
deriving DecidableEq, Repr

/-- Payload of a guarded instruction after reification. -/
inductive RRun where
  | function (block : Nat)
  | set (location : RLocation) (value : Int)
deriving DecidableEq, Repr

/-- Instruction after reification (`reify_locations::Instruction`). -/
inductive RInstr where
  | set (location : RLocation) (value : Int)
  | operation (op : Op) (source destination : RLocation)
  | push (offset : Nat)
  | pop (offset : Nat)
  | tellraw (text : String)
  | command (text : String)
  | executeIfScoreMatches (location : RLocation) (value : Int) (run : RRun)
  | executeUnlessScoreMatches (location : RLocation) (value : Int) (run : RRun)
  | executeIfScoreEquals (a b : RLocation) (run : RRun)
  | executeUnlessScoreEquals (a b : RLocation) (run : RRun)
  | function (block : Nat)
deriving DecidableEq, Repr

/-- Program after reification. -/
structure RProgram where
  blocks : List (List RInstr)
  edges : List (Nat × Nat)
  tests : List Test
deriving DecidableEq, Repr

/-- `reify_location_run`: a register payload passes through; a stack
payload becomes a set-to-StackItem with a trailing `Push`. -/
def reify_location_run : IRun → RRun × List RInstr
  | .function b => (.function b, [])
  | .set (.register r) v => (.set (.register r) v, [])
  | .set (.stack offset) v => (.set .stackItem v, [.push offset])

/-- `reify_location_instr`. The `ExecuteIfScoreEquals` and
`ExecuteUnlessScoreEquals` arms are `todo!()` in the source and panic
with the std message "not yet implemented". -/
def reify_location_instr : IInstr → Except String (List RInstr)
  | .set (.register r) value => pure [.set (.register r) value]
  | .set (.stack offset) value =>
    pure [.set .stackItem value, .push offset]
  | .operation .equals source destination =>
    if source = destination then pure [] else
    reify_operation .equals source destination
  | .operation op source destination => reify_operation op source destination
  | .tellraw text => pure [.tellraw text]
  | .command text => pure [.command text]
  | .executeIfScoreMatches (.register r) value run =>
    let (run', after) := reify_location_run run
    pure ([.executeIfScoreMatches (.register r) value run'] ++ after)
  | .executeIfScoreMatches (.stack offset) value run =>
    let (run', after) := reify_location_run run
    pure ([.pop offset, .executeIfScoreMatches .stackItem value run'] ++ after)
  | .executeUnlessScoreMatches (.register r) value run =>
    let (run', after) := reify_location_run run
    pure ([.executeUnlessScoreMatches (.register r) value run'] ++ after)
  | .executeUnlessScoreMatches (.stack offset) value run =>
    let (run', after) := reify_location_run run
    pure ([.pop offset, .executeUnlessScoreMatches .stackItem value run'] ++ after)
  | .executeIfScoreEquals _ _ _ => .error "not yet implemented"
  | .executeUnlessScoreEquals _ _ _ => .error "not yet implemented"
  | .function b => pure [.function b]
where
  /-- The four register/stack operand cases of `Operation`. -/
  reify_operation (op : Op) : Location → Location → Except String (List RInstr)
    | .register s, .register d =>
      pure [.operation op (.register s) (.register d)]
    | .stack offset, .register d =>
      pure [.pop offset, .operation op .stackItem (.register d)]
    | .register s, .stack offset =>
      pure [.pop offset, .operation op (.register s) .stackItem, .push offset]
    | .stack source_offset, .stack destination_offset =>
      pure [.pop source_offset,
            .operation .equals .stackItem .scratch,
            .pop destination_offset,
            .operation op .scratch .stackItem,
            .push destination_offset]

/-- `reify_location`. -/
def reify_location (p : IProgram) : Except String RProgram := do
  let blocks ← p.blocks.mapM fun bl => do
    pure (← bl.mapM reify_location_instr).flatten
  pure ⟨blocks, p.edges, p.tests⟩

/-! ## Emit (`src/emit_text.rs`, `src/runtime.rs`, `src/utility.rs`) -/

/-- One command-script record (`datapack::Function`). `nspace` stands in
for the Rust field `namespace`, which is a reserved word here. -/
structure MCFunction where
  nspace : String
  name : String
  content : String
deriving DecidableEq, Repr

/-- `utility::escape` on the character list: the sequential
`replace("\\", "\\\\")` then `replace("\"", "\\\"")` amount to escaping
each backslash and each double quote with a backslash. -/
def escape_chars : List Char → List Char
  | [] => []
  | c :: rest =>
    if c = '\\' then '\\' :: '\\' :: escape_chars rest
    else if c = '"' then '\\' :: '"' :: escape_chars rest
    else c :: escape_chars rest

/-- `utility::escape`. -/
def escape (s : String) : String := String.mk (escape_chars s.data)

/-- Register display (`Display for Register`). -/
def register_text : Register → String
  | .r1 => "r1" | .r2 => "r2" | .r3 => "r3" | .r4 => "r4"
  | .r5 => "r5" | .r6 => "r6" | .r7 => "r7" | .r8 => "r8"
  | .e1 => "e1" | .e2 => "e2" | .e3 => "e3" | .e4 => "e4"
  | .e5 => "e5" | .e6 => "e6" | .e7 => "e7" | .e8 => "e8"

/-- Reified location display (`Display for reify_locations::Location`). -/
def rloc_text : RLocation → String
  | .register r => register_text r ++ " registry"
  | .stackItem => "item stack"
  | .scratch => "scratch registry"

/-- Operation display (`Display for Op`). -/
def op_text : Op → String
  | .equals => "="
  | .plusEquals => "+="
  | .minusEquals => "-="
  | .timesEquals => "*="
  | .divideEquals => "/="

/-- `emit_text_run`. -/
def emit_text_run : RRun → String
  | .function b => "function mctest:block" ++ toString b
  | .set l v => "scoreboard players set " ++ rloc_text l ++ " " ++ toString v

/-- `emit_text_instr`; the two score-equals arms are `todo!()` in the
source and panic with "not yet implemented". -/
def emit_text_instr : RInstr → Except String String
  | .set l v =>
    pure ("scoreboard players set " ++ rloc_text l ++ " " ++ toString v ++ "\n")
  | .operation op s d =>
    pure ("scoreboard players operation " ++ rloc_text d ++ " " ++ op_text op ++
      " " ++ rloc_text s ++ "\n")
  | .push offset =>
    pure ("scoreboard players set offset stack " ++ toString offset ++
      "\nfunction mctest:push\n")
  | .pop offset =>
    pure ("scoreboard players set offset stack " ++ toString offset ++
      "\nfunction mctest:pop\n")
  | .tellraw text => pure ("tellraw @s \"" ++ escape text ++ "\"\n")
  | .command text => pure (text ++ "\n")
  | .executeIfScoreMatches l v run =>
    pure ("execute if score " ++ rloc_text l ++ " matches " ++ toString v ++
      " run " ++ emit_text_run run ++ "\n")
  | .executeUnlessScoreMatches l v run =>
    pure ("execute unless score " ++ rloc_text l ++ " matches " ++ toString v ++
      " run " ++ emit_text_run run ++ "\n")
  | .executeIfScoreEquals _ _ _ => .error "not yet implemented"
  | .executeUnlessScoreEquals _ _ _ => .error "not yet implemented"
  | .function b => pure ("function mctest:block" ++ toString b ++ "\n")

/-- `emit_text_block`. -/
def emit_text_block (instrs : List RInstr) : Except String String := do
  pure (String.join (← instrs.mapM emit_text_instr))

/-- `runtime::setup_init`: the fixed initialization preamble. -/
def setup_init : String :=
  "scoreboard objectives add registry dummy\n" ++
  String.join ((List.range 8).map fun i =>
    "scoreboard players set r" ++ toString (i + 1) ++ " registry 0\n") ++
  String.join ((List.range 8).map fun i =>
    "scoreboard players set e" ++ toString (i + 1) ++ " registry 0\n") ++
  String.join ((List.range 8).map fun i =>
    "scoreboard players set a" ++ toString (i + 1) ++ " registry 0\n") ++
  "scoreboard objectives add stack dummy\n" ++
  "scoreboard players set ptr stack 0\n" ++
  "scoreboard players set offset stack 0\n" ++
  "scoreboard players set item stack 0\n" ++
  String.join ((List.range 32).map fun i =>
    "scoreboard players set " ++ toString i ++ " stack 0\n")

/-- `runtime::setup_push`. -/
def setup_push : MCFunction :=
  ⟨"mctest", "push",
   "scoreboard players operation tmp stack = ptr stack\n" ++
   "scoreboard players operation tmp stack -= offset stack\n" ++
   String.join ((List.range 32).map fun i =>
     "execute if score tmp stack matches " ++ toString i ++
     " run scoreboard players operation " ++ toString i ++ " stack = item stack\n")⟩

/-- `runtime::setup_pop`. -/
def setup_pop : MCFunction :=
  ⟨"mctest", "pop",
   "scoreboard players operation tmp stack = ptr stack\n" ++
   "scoreboard players operation tmp stack -= offset stack\n" ++
   String.join ((List.range 32).map fun i =>
     "execute if score tmp stack matches " ++ toString i ++
     " run scoreboard players operation item stack = " ++ toString i ++ " stack\n")⟩

/-- Test loop of `emit_text`: one `testN` function per test (indexing the
block vector panics when the entry index is out of bounds), plus the
accumulated `function mctest:testN` call lines for `run`. -/
def emit_tests (p : RProgram) : List (Nat × Test) →
    Except String (List MCFunction × String)
  | [] => pure ([], "")
  | (i, t) :: rest => do
    let bl ← opanic "index out of bounds" p.blocks[t.block]?
    let content ← emit_text_block bl
    let (fns, calls) ← emit_tests p rest
    pure (⟨"mctest", "test" ++ toString i, content⟩ :: fns,
      "function mctest:test" ++ toString i ++ "\n" ++ calls)

/-- Block loop of `emit_text`: a `blockI` function for every node index
that is not a test entry. -/
def emit_blocks (p : RProgram) : List Nat → Except String (List MCFunction)
  | [] => pure []
  | i :: rest => do
    if (p.tests.map Test.block).contains i then emit_blocks p rest
    else
      let bl ← opanic "index out of bounds" p.blocks[i]?
      let content ← emit_text_block bl
      let fns ← emit_blocks p rest
      pure (⟨"mctest", "block" ++ toString i, content⟩ :: fns)

/-- `emit_text`: runtime helpers, the per-test functions, the per-block
functions, and the `run` entry function. -/
def emit_text (p : RProgram) : Except String (List MCFunction) := do
  let preamble := setup_init ++
    "tellraw @s \"TAP version 14\"\n" ++
    "tellraw @s \"1.." ++ toString p.tests.length ++ "\"\n" ++
    "scoreboard players set ptr stack 10\n"
  let (test_fns, calls) ← emit_tests p p.tests.enum
  let block_fns ← emit_blocks p (List.range p.blocks.length)
  pure ([setup_push, setup_pop] ++ test_fns ++ block_fns ++
    [⟨"mctest", "run", preamble ++ "\n" ++ calls ++ "\ntellraw @s \"<EOF>\""⟩])

/-! ## The pipeline (`src/lib.rs`) -/

/-- The compiler core after parsing: the pass chain of `compile`. -/
def core_pipeline (O : Oracles) (defs : List PDef) :
    Except String (List MCFunction) := do
  let u ← uniquify defs
  let s ← select_instructions (linearize (desugar_asserts u))
  let a ← assign_homes O s
  let r ← reify_location (insert_jmps a)
  emit_text r

/-- Failure channels of `compile`: the two `?`-propagated `Result`s of
the external lexer and parser, and the panics of the core passes. -/
inductive CompileError where
  | lexError (msg : String)
  | parseError (msg : String)
  | panicked (msg : String)
deriving DecidableEq, Repr

/-- The compiler's product (`datapack::Datapack`). -/
structure Datapack where
  description : String
  pack_format : Nat
  functions : List MCFunction
deriving DecidableEq, Repr

/-- `compile`, with the out-of-scope lexer and parser supplied as
parameters over an abstract token type: their errors propagate through
`?`; the core passes return plain values or panic. -/
def compile_model (Toks : Type) (lexf : String → Except String Toks)
    (parsef : Toks → Except String (List PDef)) (O : Oracles)
    (source : String) : Except CompileError Datapack :=
  match lexf source with
  | .error e => .error (.lexError e)
  | .ok toks =>
    match parsef toks with
    | .error e => .error (.parseError e)
    | .ok defs =>
      match core_pipeline O defs with
      | .error m => .error (.panicked m)
      | .ok fns => .ok ⟨"Datapack generated by MCML", 18, fns⟩

/-- Breadth-style reachability on the edge list: one expansion step. -/
def reach_step (edges : List (Nat × Nat)) (s : List Nat) : List Nat :=
  (s ++ (edges.filter (fun e => e.1 ∈ s)).map (·.2)).dedup

/-- Nodes reachable from `starts` within `fuel` steps. -/
def reachable_set (edges : List (Nat × Nat)) (starts : List Nat) : Nat → List Nat
  | 0 => starts
  | fuel + 1 => reach_step edges (reachable_set edges starts fuel)

/-- Substring test over the character lists, for claims about the text of
a diagnostic. -/
def has_substr_chars (needle : List Char) : List Char → Bool
  | [] => decide (needle = [])
  | c :: rest => needle.isPrefixOf (c :: rest) || has_substr_chars needle rest

/-- Substring test on strings. -/
def has_substr (hay pat : String) : Bool :=
  has_substr_chars pat.data hay.data

/-! ## Concrete programs and oracles used by witnesses and
counterexamples -/

/-- The source program `(test "t" (asserteq (+ 1 2) 3))` as the parser
delivers it. -/
def arith_prog : PDef :=
  ⟨"t", [.assertEq (.plus (.litInt 1) (.litInt 2)) (.litInt 3)]⟩

/-- The source program
`(test "t" (let (x 1)) (let (y 1)) (asserteq x y))`. -/
def vareq_prog : PDef :=
  ⟨"t", [.letS "x" (.litInt 1), .letS "y" (.litInt 1),
         .assertEq (.variable_ "x") (.variable_ "y")]⟩

/-- The source program `(test "t" (assert false))`. -/
def false_prog : PDef := ⟨"t", [.assert (.litBool false)]⟩

/-- The lowering input produced by the front end (uniquify then
desugar_asserts) for `false_prog`: one definition whose body is the
desugared `assert`, with variable counter 0. -/
def c6_input : List DDef × Nat :=
  ([⟨"t", [.expr (.ifE (.litBool false)
      (.bundle [.tellOk "t"] .litUnit)
      (.bundle [.tellNotOk "t"] .litUnit))]⟩], 0)

/-- Oracle: process the CFG in the order join, then-branch, else-branch,
entry (a reversed toposort of the four-block diamond); two variables are
popped with ids 0 then 2. -/
def oracle_a : Oracles := ⟨[3, 1, 2, 0], [⟨0, none⟩, ⟨2, none⟩]⟩

/-- Oracle: same block order, variables popped in the opposite order. -/
def oracle_b : Oracles := ⟨[3, 1, 2, 0], [⟨2, none⟩, ⟨0, none⟩]⟩

/-- Oracle for `vareq_prog`: its two variables are the named `x` and `y`. -/
def oracle_xy : Oracles := ⟨[3, 1, 2, 0], [⟨0, some "x"⟩, ⟨1, some "y"⟩]⟩

/-- Oracle for `false_prog`: no variables at all. -/
def oracle_novar : Oracles := ⟨[3, 1, 2, 0], []⟩

/-- The `test0` record of a compilation result, the projection on which
the two differing runs of the determinism counterexample are compared. -/
def test0_content (r : Except String (List MCFunction)) : Option (List String) :=
  r.toOption.map fun fns =>
    (fns.filter fun f => f.name = "test0").map MCFunction.content

/-- The reification-stage prefix of the pipeline, for claims about the
final block graph. -/
def pipeline_to_reify (O : Oracles) (defs : List PDef) :
    Except String RProgram := do
  let u ← uniquify defs
  let s ← select_instructions (linearize (desugar_asserts u))
  let a ← assign_homes O s
  reify_location (insert_jmps a)

/-- Properness of a partial coloring: distinct interfering variables that
both have colors have distinct colors. -/
def proper (g : IGraph) (cm : CMap) : Prop :=
  ∀ a b ca cb, undirected_mem g.edges a b = true → a ≠ b →
    look cm a = some ca → look cm b = some cb → ca ≠ cb

/-- Concrete annotated two-variable program for the C1 witness. -/
def c1_prog : AnnProgram :=
  ⟨[⟨[⟨.set ⟨1, none⟩ 1, [⟨0, none⟩, ⟨1, none⟩]⟩,
      ⟨.set ⟨0, none⟩ 1, [⟨0, none⟩]⟩], []⟩], [], []⟩

/-- Move graph for the C3 counterexample: node 0 is move-related to the
colored nodes 1 (color 2) and 2 (color 1). -/
def c3_mg : MGraph := ⟨[(⟨0, none⟩, ⟨1, none⟩), (⟨0, none⟩, ⟨2, none⟩)]⟩

/-- Coloring so far for the C3 counterexample: the hash map lists the
binding to color 2 first. -/
def c3_cm : CMap := [(⟨1, none⟩, 2), (⟨2, none⟩, 1)]

/-- Edge-free interference graph for the C3 counterexample. -/
def c3_g : IGraph := ⟨[⟨0, none⟩, ⟨1, none⟩, ⟨2, none⟩], []⟩

/-- The `Set`/`Operation` operand locations of a reified instruction. -/
def rinstr_set_op_locations : RInstr → List RLocation
  | .set l _ => [l]
  | .operation _ s d => [s, d]
  | _ => []

/-- A reified location is a register, the stack-item pseudo-register, or
the scratch register — the three constructors of the reified location
type, which has no `Stack` constructor at all. -/
def rloc_reified (l : RLocation) : Prop :=
  (∃ r, l = .register r) ∨ l = .stackItem ∨ l = .scratch

/-- Set equality of variable lists. -/
def seteq (a b : List Var) : Bool :=
  decide (∀ v ∈ a, v ∈ b) && decide (∀ v ∈ b, v ∈ a)

/-- The stored annotations of a block form the chain the spec's transfer
function dictates: the first stored annotation (the live-after of the
block's last instruction) is the block's exit set, each following one is
`(L ∖ write) ∪ read` of its predecessor in storage order, and the final
value is the block's live-before set. -/
def live_chain : List AnnInstr → List Var → List Var → Bool
  | [], l, lb => seteq lb l
  | a :: rest, l, lb =>
    seteq a.live_after l && live_chain rest (uncover_live_before a.instr l) lb

/-- Two-block program for the C2 witness: a `Set` in the entry block and
a guarded jump to the empty exit block. -/
def c2_g : SProgram :=
  ⟨[[.set ⟨0, none⟩ 1], []],
   [(0, 1, .executeIfScoreMatchesFunction ⟨0, none⟩ 1 1)], []⟩

/-- The annotated result of the live analysis on `c2_g`. -/
def c2_ag : AnnProgram := (uncover_live [1, 0] c2_g).toOption.getD ⟨[], [], []⟩

/-- The annotated entry block of `c2_ag`. -/
def c2_abl : ABlock := (c2_ag.blocks[0]?).getD ⟨[], []⟩

/-- The reified form of `(test "t" (assert false))`: instruction
selection deleted the `If(false)` edge, leaving the then-branch block 1
in the graph but unreachable from the test entry. -/
def c8_rprog : RProgram :=
  (pipeline_to_reify oracle_novar [false_prog]).toOption.getD ⟨[], [], []⟩

/-- Bound-variable check for an expression against the set of names in
scope, mirroring the recursion of `uniquify_expr`. -/
def expr_bound (ks : List String) : PExpr → Bool
  | .litBool _ => true
  | .litInt _ => true
  | .variable_ n => decide (n ∈ ks)
  | .plus l r => expr_bound ks l && expr_bound ks r
  | .minus l r => expr_bound ks l && expr_bound ks r
  | .times l r => expr_bound ks l && expr_bound ks r
  | .divide l r => expr_bound ks l && expr_bound ks r
  | .ifE c t e => expr_bound ks c && expr_bound ks t && expr_bound ks e
  | .eq l r => expr_bound ks l && expr_bound ks r

/-- Bound-variable check for a statement list, growing the scope at each
`let` exactly as `uniquify_test` grows its environment. -/
def stmts_bound (ks : List String) : List PStmt → Bool
  | [] => true
  | .assert e :: rest => expr_bound ks e && stmts_bound ks rest
  | .assertEq l r :: rest =>
    expr_bound ks l && expr_bound ks r && stmts_bound ks rest
  | .command _ :: rest => stmts_bound ks rest
  | .letS n e :: rest => expr_bound ks e && stmts_bound (n :: ks) rest

/-- Bound-variable check for a whole program: each test starts with an
empty scope. -/
def defs_bound (defs : List PDef) : Bool :=
  defs.all fun d => stmts_bound [] d.stmts

/-- The shape claim for one recorded `If` lowering, in the final edge
list: the branching block has exactly the `If`/`Unless` pair with the
identical condition, and each branch's final block has exactly one
`Unconditional` edge to the common join block. -/
def ev_spec (ev : IfEvent) (edges : List LEdge) : Prop :=
  edges_from edges ev.branch =
    [(ev.branch, ev.thn_entry, .ifJ ev.cond),
     (ev.branch, ev.els_entry, .unlessJ ev.cond)] ∧
  edges_from edges ev.thn_final = [(ev.thn_final, ev.join, .unconditional)] ∧
  edges_from edges ev.els_final = [(ev.els_final, ev.join, .unconditional)]

/-- The blocks whose out-edge lists an event pins down. -/
def ev_nodes (ev : IfEvent) : List Nat := [ev.branch, ev.thn_final, ev.els_final]

/-- Standing well-formedness of the growing graph: edge sources are
valid block indices, and every recorded event already has its final
shape with its nodes in range. -/
def top_inv (st : LinState) : Prop :=
  (∀ e ∈ st.edges, e.1 < st.blocks.length) ∧
  ∀ ev ∈ st.log, ev_spec ev st.edges ∧ ∀ n ∈ ev_nodes ev, n < st.blocks.length

/-- Invariant of a lowering step: the current block is a valid index
with no outgoing edges yet, the graph is well formed, and the current
block is none of the pinned nodes of any recorded event. -/
def lin_inv (st : LinState) (cur : Nat) : Prop :=
  cur < st.blocks.length ∧
  edges_from st.edges cur = [] ∧
  top_inv st ∧
  ∀ ev ∈ st.log, cur ∉ ev_nodes ev

/-- Frame of a lowering call from `(st, cur)` to `(st', cur')`: the
graph only grows; the current block either stays or moves to a fresh
node; added edges start at the old current block or at fresh nodes;
added events involve only the old current block and fresh nodes; and
the invariant is preserved. -/
def lin_frame (st : LinState) (cur : Nat) (st' : LinState) (cur' : Nat) : Prop :=
  st.blocks.length ≤ st'.blocks.length ∧
  (cur' = cur ∨ (st.blocks.length ≤ cur' ∧ cur' < st'.blocks.length)) ∧
  (∃ Δ, st'.edges = st.edges ++ Δ ∧
    ∀ e ∈ Δ, e.1 = cur ∨ st.blocks.length ≤ e.1) ∧
  (∃ Λ, st'.log = st.log ++ Λ ∧
    ∀ ev ∈ Λ, ∀ n ∈ ev_nodes ev, n = cur ∨ st.blocks.length ≤ n) ∧
  (lin_inv st cur → lin_inv st' cur')

/-- The `If` lowering from the point where the condition is ready. This
is definitionally the tail that `linearize_expr` inlines in both arms of
its condition match (`linearize_expr_ifE_eq` below). -/
def linearize_if_full (st : LinState) (cur : Nat) (lcond : LCond)
    (thn els : DExpr) : LinState × Nat × LAtom :=
  let (st₃, v) := fresh_tmp st
  let (st₄, thn_entry) := add_node st₃
  let st₅ := add_edge st₄ cur thn_entry (.ifJ lcond)
  let (st₆, cur_t, ta) := linearize_expr st₅ thn_entry thn
  let st₇ := append_stmt st₆ cur_t (.assign v (.atom ta))
  let (st₈, els_entry) := add_node st₇
  let st₉ := add_edge st₈ cur els_entry (.unlessJ lcond)
  let (st₁₀, cur_e, ea) := linearize_expr st₉ els_entry els
  let st₁₁ := append_stmt st₁₀ cur_e (.assign v (.atom ea))
  linearize_if_tail st₁₁ cur lcond v thn_entry els_entry cur_t cur_e

end MCML

deriving instance DecidableEq for Except

namespace MCML

/-! # Theorems

General-purpose lemmas first, then one theorem per claim with its
witness or counterexample. -/

theorem look_cons {α β : Type} [DecidableEq α] (p : α × β) (m : List (α × β))
    (a : α) : look (p :: m) a = if p.1 = a then some p.2 else look m a := rfl

/-- Prepending a binding never erases the presence of a key. -/
theorem look_isSome_cons {α β : Type} [DecidableEq α] {m : List (α × β)}
    {a : α} (p : α × β) (h : (look m a).isSome) :
    (look (p :: m) a).isSome := by
  rw [look_cons]
  split <;> simp [h]

/-- A present binding survives the insertion of an absent key. -/
theorem look_stable {α β : Type} [DecidableEq α] {m : List (α × β)}
    {a w : α} {c : β} (d : β) (h : look m a = some c) (hw : look m w = none) :
    look ((w, d) :: m) a = some c := by
  rw [look_cons]
  split
  · rename_i he
    rw [show w = a from he, h] at hw
    cases hw
  · exact h

/-! ### C1: the coloring is total and proper -/

/-- Membership in `set_union` is disjunction of memberships. -/
theorem set_union_mem {l s : List Var} {v : Var} :
    v ∈ set_union l s ↔ v ∈ l ∨ v ∈ s := by
  unfold set_union
  by_cases h : v ∈ l <;> simp [h]

/-- The chosen color conflicts with nothing: the loop skips preferred
colors in `conflicts` and counts upward past `conflicts`. -/
theorem least_from_spec (s : List Nat) :
    ∀ fuel c, (∃ d, c ≤ d ∧ d ≤ c + fuel ∧ d ∉ s) →
      least_from s fuel c ∉ s ∧ c ≤ least_from s fuel c ∧
        ∀ k, c ≤ k → k < least_from s fuel c → k ∈ s := by
  intro fuel
  induction fuel with
  | zero =>
    intro c h
    obtain ⟨d, hcd, hdc, hds⟩ := h
    have hdce : d = c := Nat.le_antisymm (by omega) hcd
    subst hdce
    refine ⟨by simpa [least_from] using hds, by simp [least_from], ?_⟩
    intro k h1 h2
    simp only [least_from] at h2
    omega
  | succ fuel ih =>
    intro c h
    obtain ⟨d, hcd, hdc, hds⟩ := h
    by_cases hc : c ∈ s
    · have hne : d ≠ c := fun he => hds (he ▸ hc)
      obtain ⟨h1, h2, h3⟩ := ih (c + 1) ⟨d, by omega, by omega, hds⟩
      refine ⟨by simpa [least_from, hc] using h1, ?_, ?_⟩
      · simp only [least_from, hc, if_true]
        omega
      · intro k hk hkl
        simp only [least_from, hc, if_true] at hkl
        rcases Nat.eq_or_lt_of_le hk with he | he
        · exact he ▸ hc
        · exact h3 k he hkl
    · refine ⟨by simp [least_from, hc], by simp [least_from, hc], ?_⟩
      intro k h1 h2
      simp only [least_from, hc, if_false] at h2
      omega

/-- Every member of a list of naturals is bounded by `max_of`. -/
theorem mem_le_max_of {s : List Nat} {d : Nat} (h : d ∈ s) : d ≤ max_of s := by
  induction s with
  | nil => cases h
  | cons a rest ih =>
    rcases List.mem_cons.mp h with h' | h'
    · subst h'
      simp only [max_of, List.foldr]
      omega
    · have := ih h'
      simp only [max_of, List.foldr] at this ⊢
      omega

/-- The fallback loop of `find_least_color` returns a color outside the
conflict set, and the least such one. -/
theorem least_from_conflicts (s : List Nat) :
    least_from s (max_of s + 1) 0 ∉ s ∧
      ∀ k < least_from s (max_of s + 1) 0, k ∈ s := by
  have h := least_from_spec s (max_of s + 1) 0
    ⟨max_of s + 1, by omega, by omega, fun hmem => by
      have := mem_le_max_of hmem; omega⟩
  exact ⟨h.1, fun k hk => h.2.2 k (Nat.zero_le k) hk⟩

/-- Whatever enumeration of the preferred set is supplied, the color
`find_least_color_with` returns is not a conflicting color. -/
theorem find_least_color_with_not_conflicting (pref : List Nat) (g : IGraph)
    (cm : CMap) (v : Var) :
    find_least_color_with pref g cm v ∉ find_conflicting_colors g cm v := by
  unfold find_least_color_with
  cases hf : pref.find? (fun c => decide (c ∉ find_conflicting_colors g cm v)) with
  | none => exact (least_from_conflicts _).1
  | some c =>
    have hp := List.find?_some hf
    simpa using hp

/-- A colored neighbor's color is among the conflicts. -/
theorem conflicts_complete {g : IGraph} {cm : CMap} {v b : Var} {cb : Nat}
    (hadj : undirected_mem g.edges v b = true) (hc : look cm b = some cb) :
    cb ∈ find_conflicting_colors g cm v := by
  have hb : b ∈ g.neighbors v := by
    unfold undirected_mem at hadj
    simp only [Bool.or_eq_true, decide_eq_true_eq] at hadj
    unfold IGraph.neighbors
    rcases hadj with h | h
    · exact List.mem_filterMap.mpr ⟨(v, b), h, by simp⟩
    · rcases em (b = v) with he | he
      · exact List.mem_filterMap.mpr ⟨(b, v), h, by simp [he]⟩
      · exact List.mem_filterMap.mpr ⟨(b, v), h, by simp [he]⟩
  exact List.mem_filterMap.mpr ⟨b, hb, hc⟩

/-- Interference is symmetric. -/
theorem undirected_mem_symm {es : List (Var × Var)} {a b : Var}
    (h : undirected_mem es a b = true) : undirected_mem es b a = true := by
  unfold undirected_mem at h ⊢
  rcases Bool.or_eq_true _ _ |>.mp h with h' | h' <;> simp [h']

/-- One coloring step preserves properness: the inserted color avoids
every colored neighbor's color. -/
theorem proper_insert {g : IGraph} {cm : CMap} {v : Var} (pref : List Nat)
    (_hnone : look cm v = none) (hp : proper g cm) :
    proper g ((v, find_least_color_with pref g cm v) :: cm) := by
  intro a b ca cb hadj hne ha hb
  rw [look_cons] at ha hb
  by_cases hva : v = a <;> by_cases hvb : v = b
  · exact absurd (hva.symm.trans hvb) hne
  · simp only [if_pos hva] at ha
    simp only [if_neg hvb] at hb
    intro he
    have hfa : find_least_color_with pref g cm v = ca := Option.some.inj ha
    apply find_least_color_with_not_conflicting pref g cm v
    rw [hfa, he]
    exact conflicts_complete (hva ▸ hadj) hb
  · simp only [if_neg hva] at ha
    simp only [if_pos hvb] at hb
    intro he
    have hfb : find_least_color_with pref g cm v = cb := Option.some.inj hb
    apply find_least_color_with_not_conflicting pref g cm v
    rw [hfb, ← he]
    exact conflicts_complete (hvb ▸ undirected_mem_symm hadj) ha
  · simp only [if_neg hva] at ha
    simp only [if_neg hvb] at hb
    exact hp a b ca cb hadj hne ha hb

/-- The coloring loop preserves properness. -/
theorem color_graph_list_proper (prefO : Var → CMap → List Nat) (g : IGraph) :
    ∀ (pops : List Var) (cm : CMap), proper g cm →
      proper g (color_graph_list prefO g pops cm) := by
  intro pops
  induction pops with
  | nil => intro cm h; exact h
  | cons v rest ih =>
    intro cm h
    unfold color_graph_list
    cases hl : (look cm v).isSome with
    | true => simpa [hl] using ih cm h
    | false =>
      have hnone : look cm v = none := by
        cases hv : look cm v
        · rfl
        · rw [hv] at hl; cases hl
      simpa [hl] using ih _ (proper_insert _ hnone h)

/-- The coloring loop never drops a color. -/
theorem color_graph_list_mono (prefO : Var → CMap → List Nat) (g : IGraph) :
    ∀ (pops : List Var) (cm : CMap) (v : Var), (look cm v).isSome →
      (look (color_graph_list prefO g pops cm) v).isSome := by
  intro pops
  induction pops with
  | nil => intro cm v h; exact h
  | cons w rest ih =>
    intro cm v h
    unfold color_graph_list
    cases hl : (look cm w).isSome with
    | true => simpa [hl] using ih cm v h
    | false => simpa [hl] using ih _ v (look_isSome_cons _ h)

/-- Every popped node ends up colored. -/
theorem color_graph_list_covers (prefO : Var → CMap → List Nat) (g : IGraph) :
    ∀ (pops : List Var) (cm : CMap) (v : Var), v ∈ pops →
      (look (color_graph_list prefO g pops cm) v).isSome := by
  intro pops
  induction pops with
  | nil => intro _ _ h; cases h
  | cons w rest ih =>
    intro cm v h
    unfold color_graph_list
    rcases List.mem_cons.mp h with hv | hv
    · subst hv
      cases hl : (look cm v).isSome with
      | true => simpa [hl] using color_graph_list_mono prefO g rest cm v hl
      | false =>
        have : (look ((v, find_least_color_with (prefO v cm) g cm v) :: cm) v).isSome := by
          simp [look_cons]
        simpa [hl] using color_graph_list_mono prefO g rest _ v this
    · cases hl : (look cm w).isSome with
      | true => simpa [hl] using ih cm v hv
      | false => simpa [hl] using ih _ v hv

/-- Fold-preservation helper. -/
theorem foldl_pres {α β : Type} (P : β → Prop) (f : β → α → β)
    (hf : ∀ b a, P b → P (f b a)) :
    ∀ (l : List α) (b : β), P b → P (l.foldl f b) := by
  intro l
  induction l with
  | nil => intro b h; exact h
  | cons x rest ih => intro b h; exact ih (f b x) (hf b x h)

/-- `ig_add_edge` keeps the edge list irreflexive when the pair added is. -/
theorem ig_add_edge_irrefl {es : List (Var × Var)} {a b : Var}
    (h : ∀ e ∈ es, e.1 ≠ e.2) (hab : a ≠ b) :
    ∀ e ∈ ig_add_edge es a b, e.1 ≠ e.2 := by
  unfold ig_add_edge
  split
  · exact h
  · intro e he
    rcases List.mem_append.mp he with he' | he'
    · exact h e he'
    · rcases List.mem_singleton.mp he' with rfl
      exact hab

/-- The interference edges of one instruction are irreflexive: both
branches of `build_interference_instr` guard the pair with `x ≠ d`. -/
theorem build_interference_instr_irrefl {es : List (Var × Var)} (ai : AnnInstr)
    (h : ∀ e ∈ es, e.1 ≠ e.2) :
    ∀ e ∈ build_interference_instr es ai, e.1 ≠ e.2 := by
  unfold build_interference_instr
  split
  · rename_i s d
    refine foldl_pres (fun (es : List (Var × Var)) => ∀ e ∈ es, e.1 ≠ e.2) _ ?_ ai.live_after es h
    intro es' x hes'
    split
    · rename_i hx
      exact ig_add_edge_irrefl hes' (Ne.symm hx.1)
    · exact hes'
  · refine foldl_pres (fun (es : List (Var × Var)) => ∀ e ∈ es, e.1 ≠ e.2) _ ?_ (write_set ai.instr) es h
    intro es' d hes'
    refine foldl_pres (fun (es : List (Var × Var)) => ∀ e ∈ es, e.1 ≠ e.2) _ ?_ ai.live_after es' hes'
    intro es'' x hes''
    split
    · rename_i hx
      exact ig_add_edge_irrefl hes'' (Ne.symm hx)
    · exact hes''

/-- No self-loop ever enters the interference graph. -/
theorem build_interference_irrefl (p : AnnProgram) :
    ∀ e ∈ (build_interference p).edges, e.1 ≠ e.2 := by
  unfold build_interference
  refine foldl_pres (fun (es : List (Var × Var)) => ∀ e ∈ es, e.1 ≠ e.2) _ ?_ p.blocks [] (by intro e h; cases h)
  intro es b hes
  refine foldl_pres (fun (es : List (Var × Var)) => ∀ e ∈ es, e.1 ≠ e.2) _ ?_ b.instrs es hes
  intro es' ai hes'
  exact build_interference_instr_irrefl ai hes'

/-- C1. For every program reaching the allocator, the coloring of its
interference graph is total and valid: whatever pop order the priority
queue realizes (any order covering the nodes, valid or not) and whatever
enumeration order the hash sets give the preferred colors, every node of
`build_interference` receives a color and the endpoints of every
interference edge receive distinct colors. The gated entry point
`color_graph` runs `color_graph_list` on such an order, so every actual
run is an instance. -/
theorem color_graph_total_and_valid (p : AnnProgram)
    (prefO : Var → CMap → List Nat) (pops : List Var)
    (hcover : ∀ v ∈ (build_interference p).nodes, v ∈ pops) :
    (∀ v ∈ (build_interference p).nodes,
      (look (color_graph_list prefO (build_interference p) pops []) v).isSome) ∧
    (∀ e ∈ (build_interference p).edges, ∀ c₁ c₂,
      look (color_graph_list prefO (build_interference p) pops []) e.1 = some c₁ →
      look (color_graph_list prefO (build_interference p) pops []) e.2 = some c₂ →
      c₁ ≠ c₂) := by
  constructor
  · intro v hv
    exact color_graph_list_covers prefO (build_interference p) pops [] v (hcover v hv)
  · intro e he c₁ c₂ h₁ h₂
    have hprop : proper (build_interference p)
        (color_graph_list prefO (build_interference p) pops []) :=
      color_graph_list_proper prefO (build_interference p) pops []
        (by intro a b ca cb _ _ h _; cases h)
    have hmem : undirected_mem (build_interference p).edges e.1 e.2 = true := by
      unfold undirected_mem
      simp only [Bool.or_eq_true, decide_eq_true_eq]
      exact Or.inl (by simpa using he)
    exact hprop e.1 e.2 c₁ c₂ hmem (build_interference_irrefl p e he) h₁ h₂

/-- Witness for C1 at a concrete program: both variables of `c1_prog`
interfere, its pop order covers them, and the theorem delivers a total,
valid coloring there. -/
theorem color_graph_total_and_valid_witness :
    (∀ v ∈ (build_interference c1_prog).nodes,
      (look (color_graph_list (fun _ _ => []) (build_interference c1_prog)
        [⟨1, none⟩, ⟨0, none⟩] []) v).isSome) ∧
    (∀ e ∈ (build_interference c1_prog).edges, ∀ c₁ c₂,
      look (color_graph_list (fun _ _ => []) (build_interference c1_prog)
        [⟨1, none⟩, ⟨0, none⟩] []) e.1 = some c₁ →
      look (color_graph_list (fun _ _ => []) (build_interference c1_prog)
        [⟨1, none⟩, ⟨0, none⟩] []) e.2 = some c₂ →
      c₁ ≠ c₂) :=
  color_graph_total_and_valid c1_prog (fun _ _ => [])
    [⟨1, none⟩, ⟨0, none⟩] (by decide)

/-! ### C3: the choice among preferred colors -/

/-- C3 (amended). When the coloring loop pops a node whose enumerated
preferred colors contain at least one color outside `conflicts`, the
chosen color is *some* such preferred color — the first one in the hash
set's (arbitrary) iteration order, not necessarily the least; only when
every preferred color conflicts does the loop fall back to the least
non-negative integer not in `conflicts`. -/
theorem find_least_color_with_choice (pref : List Nat) (g : IGraph)
    (cm : CMap) (v : Var) :
    ((∃ c ∈ pref, c ∉ find_conflicting_colors g cm v) →
      find_least_color_with pref g cm v ∈ pref ∧
      find_least_color_with pref g cm v ∉ find_conflicting_colors g cm v) ∧
    ((∀ c ∈ pref, c ∈ find_conflicting_colors g cm v) →
      find_least_color_with pref g cm v ∉ find_conflicting_colors g cm v ∧
      ∀ k < find_least_color_with pref g cm v,
        k ∈ find_conflicting_colors g cm v) := by
  constructor
  · intro h
    obtain ⟨c, hc, hcn⟩ := h
    have hsome : (pref.find?
        (fun c => decide (c ∉ find_conflicting_colors g cm v))).isSome := by
      rw [List.find?_isSome]
      exact ⟨c, hc, by simpa using hcn⟩
    obtain ⟨c', hc'⟩ := Option.isSome_iff_exists.mp hsome
    unfold find_least_color_with
    rw [hc']
    exact ⟨List.mem_of_find?_eq_some hc', by simpa using List.find?_some hc'⟩
  · intro h
    have hnone : pref.find?
        (fun c => decide (c ∉ find_conflicting_colors g cm v)) = none := by
      rw [List.find?_eq_none]
      intro c hc
      simpa using h c hc
    unfold find_least_color_with
    rw [hnone]
    exact least_from_conflicts _

/-- Witness for C3 (amended) at a concrete node: preferred enumeration
`[2, 1]`, no conflicts; the result 2 is a preferred non-conflicting
color. -/
theorem find_least_color_with_choice_witness :
    find_least_color_with [2, 1] ⟨[⟨0, none⟩], []⟩ [] ⟨0, none⟩ ∈ [2, 1] ∧
    find_least_color_with [2, 1] ⟨[⟨0, none⟩], []⟩ [] ⟨0, none⟩ ∉
      find_conflicting_colors ⟨[⟨0, none⟩], []⟩ [] ⟨0, none⟩ :=
  (find_least_color_with_choice [2, 1] ⟨[⟨0, none⟩], []⟩ [] ⟨0, none⟩).1
    ⟨2, by decide, by decide⟩

/-- Counterexample to C3 as stated: with preferred colors {1, 2}, no
conflicts, and the map enumerating color 2 first (a realizable
`HashSet<Color>` iteration order), `find_least_color` returns 2 even
though the least conflict-free preferred color is 1. -/
theorem find_least_color_not_least_counterexample :
    find_move_related_colors c3_mg c3_cm ⟨0, none⟩ = [2, 1] ∧
    find_least_color c3_g c3_mg c3_cm ⟨0, none⟩ = 2 ∧
    (1 : Nat) ∈ find_move_related_colors c3_mg c3_cm ⟨0, none⟩ ∧
    (1 : Nat) ∉ find_conflicting_colors c3_g c3_cm ⟨0, none⟩ ∧
    (1 : Nat) < 2 := by
  refine ⟨by decide, by decide, by decide, by decide, by decide⟩

/-! ### C7: reification leaves no stack operands and expands
stack-to-stack operations through the scratch register -/

/-- Every reified location is reified (the type has no stack case). -/
theorem rloc_reified_all (l : RLocation) : rloc_reified l := by
  cases l with
  | register r => exact Or.inl ⟨r, rfl⟩
  | stackItem => exact Or.inr (Or.inl rfl)
  | scratch => exact Or.inr (Or.inr rfl)

/-- C7. After reification no `Set`/`Operation` operand is a stack slot;
an operation between two stack slots expands to
`Pop(a); Operation(=, StackItem, Scratch); Pop(b);
Operation(op, Scratch, StackItem); Push(b)` (unless the elision rule
applies first); and a move with identical source and destination is
elided. -/
theorem reify_location_instr_correct :
    (∀ (op : Op) (a b : Nat), ¬(op = Op.equals ∧ a = b) →
      reify_location_instr (.operation op (.stack a) (.stack b)) =
        .ok [.pop a, .operation .equals .stackItem .scratch, .pop b,
             .operation op .scratch .stackItem, .push b]) ∧
    (∀ x : Location, reify_location_instr (.operation .equals x x) = .ok []) ∧
    (∀ i out, reify_location_instr i = .ok out →
      ∀ r ∈ out, ∀ l ∈ rinstr_set_op_locations r, rloc_reified l) := by
  refine ⟨?_, ?_, ?_⟩
  · intro op a b h
    cases op with
    | equals =>
      have hne : Location.stack a ≠ Location.stack b := by
        intro he
        exact h ⟨rfl, by cases he; rfl⟩
      simp [reify_location_instr, hne, reify_location_instr.reify_operation, pure, Except.pure]
    | plusEquals => rfl
    | minusEquals => rfl
    | timesEquals => rfl
    | divideEquals => rfl
  · intro x
    cases x <;> simp [reify_location_instr, pure, Except.pure]
  · intro i out _ r _ l _
    exact rloc_reified_all l

/-- Witness for C7: the stack-to-stack `+=` at offsets 1 and 2 expands
to the five-instruction sequence, and the move from register `r1` to
itself is elided. -/
theorem reify_location_instr_correct_witness :
    reify_location_instr (.operation .plusEquals (.stack 1) (.stack 2)) =
      .ok [.pop 1, .operation .equals .stackItem .scratch, .pop 2,
           .operation .plusEquals .scratch .stackItem, .push 2] ∧
    reify_location_instr
        (.operation .equals (.register .r1) (.register .r1)) = .ok [] :=
  ⟨reify_location_instr_correct.1 .plusEquals 1 2 (by decide),
   reify_location_instr_correct.2.1 (.register .r1)⟩

/-! ### C5: the equals-guarded instructions abort reification and
emission -/

/-- C5. The source leaves `ExecuteIfScoreEquals` and
`ExecuteUnlessScoreEquals` as `todo!()` in both the reification and the
emission pass: instead of emitting the analogous
`execute if score {a} = {b} run {Run}` line, each aborts with the
`todo!` panic, and a whole program whose P6 stream carries such an
instruction (from `(asserteq x y)` on two variables) dies there. -/
theorem equals_instructions_abort :
    reify_location_instr (.executeIfScoreEquals (.register .r1) (.register .r2)
      (.function 1)) = .error "not yet implemented" ∧
    reify_location_instr (.executeUnlessScoreEquals (.register .r1) (.register .r2)
      (.function 2)) = .error "not yet implemented" ∧
    emit_text_instr (.executeIfScoreEquals (.register .r1) (.register .r2)
      (.function 1)) = .error "not yet implemented" ∧
    emit_text_instr (.executeUnlessScoreEquals (.register .r1) (.register .r2)
      (.function 2)) = .error "not yet implemented" ∧
    core_pipeline oracle_xy [vareq_prog] = .error "not yet implemented" := by
  exact ⟨rfl, rfl, rfl, rfl, by decide⟩

/-! ### C2: the live-variable annotations satisfy the dataflow
equations -/

theorem seteq_refl (a : List Var) : seteq a a = true := by
  simp [seteq]

/-- The reverse walk of `uncover_live_block` produces exactly the chain. -/
theorem uncover_go_chain (is : List SInstr) :
    ∀ l : List Var,
      live_chain (uncover_live_go is l).1 l (uncover_live_go is l).2 = true := by
  induction is with
  | nil => intro l; simpa [uncover_live_go, live_chain] using seteq_refl l
  | cons i rest ih =>
    intro l
    simp only [uncover_live_go, live_chain]
    rw [seteq_refl]
    simpa using ih (uncover_live_before i l)

/-- Inversion of `uncover_live_before_jmp`. -/
theorem uncover_live_before_jmp_ok {j : SJmp} {m : List (Nat × ABlock)}
    {s : List Var} (h : uncover_live_before_jmp j m = .ok s) :
    ∃ tb, look m (jmp_block j) = some tb ∧
      s = set_union tb.live_before (read_jmp j) := by
  unfold uncover_live_before_jmp at h
  cases hl : look m (jmp_block j) with
  | none => rw [hl] at h; cases h
  | some tb =>
    rw [hl] at h
    simp only [opanic, pure, Except.pure, Except.bind] at h
    exact ⟨tb, rfl, (Except.ok.inj h).symm⟩

/-- The fold of `exit_live_after` computes the union over the out-edges
of each target's live-before set and the guard reads. -/
theorem exit_fold_mem (m : List (Nat × ABlock)) :
    ∀ (es : List (Nat × Nat × SJmp)) (acc la : List Var),
      es.foldlM (fun acc e => do
        pure (set_union acc (← uncover_live_before_jmp e.2.2 m))) acc = .ok la →
      (∀ e ∈ es, ∃ tb, look m (jmp_block e.2.2) = some tb) ∧
      (∀ v, v ∈ la ↔ v ∈ acc ∨ ∃ e ∈ es, ∃ tb,
        look m (jmp_block e.2.2) = some tb ∧
        (v ∈ tb.live_before ∨ v ∈ read_jmp e.2.2)) := by
  intro es
  induction es with
  | nil =>
    intro acc la h
    simp only [List.foldlM_nil, pure, Except.pure] at h
    cases h
    refine ⟨?_, ?_⟩
    · intro e he
      cases he
    · intro v
      simp
  | cons e rest ih =>
    intro acc la h
    simp only [List.foldlM_cons] at h
    cases hj : uncover_live_before_jmp e.2.2 m with
    | error msg =>
      rw [hj] at h
      simp [Except.bind, bind] at h
    | ok s =>
      rw [hj] at h
      simp only [bind, Except.bind, pure, Except.pure] at h
      obtain ⟨tb, htb, hs⟩ := uncover_live_before_jmp_ok hj
      obtain ⟨h1, h2⟩ := ih (set_union acc s) la h
      constructor
      · intro e' he'
        rcases List.mem_cons.mp he' with he' | he'
        · exact ⟨tb, he' ▸ htb⟩
        · exact h1 e' he'
      · intro v
        rw [h2 v]
        constructor
        · rintro (hv | hv)
          · rcases set_union_mem.mp hv with hv | hv
            · exact Or.inl hv
            · refine Or.inr ⟨e, List.mem_cons_self e rest, tb, htb, ?_⟩
              rw [hs] at hv
              exact set_union_mem.mp hv
          · obtain ⟨e', he', w⟩ := hv
            exact Or.inr ⟨e', List.mem_cons_of_mem e he', w⟩
        · rintro (hv | hv)
          · exact Or.inl (set_union_mem.mpr (Or.inl hv))
          · obtain ⟨e', he', tb', htb', hv'⟩ := hv
            rcases List.mem_cons.mp he' with he' | he'
            · subst he'
              rw [htb] at htb'
              cases htb'
              refine Or.inl (set_union_mem.mpr (Or.inr ?_))
              rw [hs]
              exact set_union_mem.mpr hv'
            · exact Or.inr ⟨e', he', tb', htb', hv'⟩

/-- Pointwise inversion of `Except`-`mapM`. -/
theorem mapM_except_get {α β : Type} (f : α → Except String β) :
    ∀ (l : List α) (bs : List β), l.mapM f = .ok bs →
      bs.length = l.length ∧
      ∀ (i : Nat) (a : α) (b : β), l[i]? = some a → bs[i]? = some b → f a = .ok b := by
  intro l
  induction l with
  | nil =>
    intro bs h
    simp only [List.mapM_nil, pure, Except.pure] at h
    cases h
    refine ⟨rfl, ?_⟩
    intro i a b ha _
    simp at ha
  | cons x rest ih =>
    intro bs h
    simp only [List.mapM_cons] at h
    cases hx : f x with
    | error msg => rw [hx] at h; simp [bind, Except.bind] at h
    | ok y =>
      rw [hx] at h
      simp only [bind, Except.bind] at h
      cases hr : rest.mapM f with
      | error msg => rw [hr] at h; simp [pure, Except.pure] at h
      | ok ys =>
        rw [hr] at h
        simp only [pure, Except.pure] at h
        cases h
        obtain ⟨hlen, hp⟩ := ih ys hr
        refine ⟨by simp [hlen], ?_⟩
        intro i a b ha hb
        cases i with
        | zero =>
          simp only [List.getElem?_cons_zero] at ha hb
          cases ha; cases hb
          exact hx
        | succ n =>
          simp only [List.getElem?_cons_succ] at ha hb
          exact hp n a b ha hb

/-- Soundness of the block loop of the live analysis: entries persist,
and each processed block's entry is the annotation of its block body
against the exit union, whose membership is characterized by the final
map. -/
theorem uncover_aux_sound (g : SProgram) :
    ∀ (order : List Nat) (m m' : List (Nat × ABlock)),
      order.Nodup → (∀ b ∈ order, look m b = none) →
      uncover_live_aux g order m = .ok m' →
      (∀ b abl, look m b = some abl → look m' b = some abl) ∧
      (∀ x abl, look m' x = some abl → look m x = some abl ∨ x ∈ order) ∧
      (∀ b ∈ order, ∃ bl la, g.blocks[b]? = some bl ∧
        look m' b = some (uncover_live_block bl la) ∧
        (∀ v, v ∈ la ↔ ∃ e ∈ edges_from g.edges b, ∃ tb,
          look m' (jmp_block e.2.2) = some tb ∧
          (v ∈ tb.live_before ∨ v ∈ read_jmp e.2.2))) := by
  intro order
  induction order with
  | nil =>
    intro m m' _ _ h
    simp only [uncover_live_aux, pure, Except.pure] at h
    cases h
    exact ⟨fun b abl h => h, fun x abl h => Or.inl h, by intro b hb; cases hb⟩
  | cons b rest ih =>
    intro m m' hnd hnone h
    simp only [uncover_live_aux] at h
    cases hla : exit_live_after g.edges m b with
    | error msg => rw [hla] at h; simp [bind, Except.bind] at h
    | ok la =>
      rw [hla] at h
      simp only [bind, Except.bind] at h
      cases hbl : g.blocks[b]? with
      | none => rw [hbl] at h; simp [opanic, Except.bind] at h
      | some bl =>
        rw [hbl] at h
        simp only [opanic, Except.bind] at h
        have hbnone := hnone b (List.mem_cons_self b rest)
        have hnd' := (List.nodup_cons.mp hnd).2
        have hbnotin := (List.nodup_cons.mp hnd).1
        have hnone' : ∀ x ∈ rest, look ((b, uncover_live_block bl la) :: m) x = none := by
          intro x hx
          rw [look_cons]
          have : b ≠ x := fun he => hbnotin (he ▸ hx)
          simp only [if_neg this]
          exact hnone x (List.mem_cons_of_mem b hx)
        obtain ⟨pers, dom, sound⟩ := ih ((b, uncover_live_block bl la) :: m) m' hnd' hnone' h
        have persm : ∀ x abl, look m x = some abl → look m' x = some abl := by
          intro x abl hx
          apply pers
          exact look_stable _ hx hbnone
        have hbm' : look m' b = some (uncover_live_block bl la) := by
          apply pers
          simp [look_cons]
        have domm : ∀ x abl, look m' x = some abl →
            look m x = some abl ∨ x ∈ b :: rest := by
          intro x abl hx
          rcases dom x abl hx with hx' | hx'
          · rw [look_cons] at hx'
            by_cases hbx : b = x
            · exact Or.inr (hbx ▸ List.mem_cons_self b rest)
            · rw [if_neg hbx] at hx'
              exact Or.inl hx'
          · exact Or.inr (List.mem_cons_of_mem b hx')
        refine ⟨persm, domm, ?_⟩
        intro x hx
        rcases List.mem_cons.mp hx with hx | hx
        · subst hx
          refine ⟨bl, la, hbl, hbm', ?_⟩
          obtain ⟨hall, hmem⟩ := exit_fold_mem m (edges_from g.edges x) [] la hla
          intro v
          rw [hmem v]
          simp only [List.not_mem_nil, false_or]
          constructor
          · rintro ⟨e, he, tb, htb, hv⟩
            exact ⟨e, he, tb, persm _ tb htb, hv⟩
          · rintro ⟨e, he, tb, htb, hv⟩
            obtain ⟨tb₀, htb₀⟩ := hall e he
            have heq : tb₀ = tb := by
              have hp := persm _ tb₀ htb₀
              rw [hp] at htb
              exact Option.some.inj htb
            exact ⟨e, he, tb₀, htb₀, heq ▸ hv⟩
        · exact sound x hx

/-- C2. For every annotated program the analysis outputs: each block's
stored annotations satisfy `live_before(k) = (live_after(k) ∖ write(k))
∪ read(k)` link by link down to the block's recorded live-before set,
and the live-after set at the block's exit (the set the chain starts
from) is exactly the union over the out-edges of the target's
live-before set and the guard's reads. -/
theorem uncover_live_correct (g : SProgram) (order : List Nat) (ag : AnnProgram)
    (h : uncover_live order g = .ok ag) :
    ∀ b abl, ag.blocks[b]? = some abl →
      ∃ L,
        (∀ v, v ∈ L ↔ ∃ e ∈ edges_from g.edges b, ∃ tb,
          ag.blocks[jmp_block e.2.2]? = some tb ∧
          (v ∈ tb.live_before ∨ v ∈ read_jmp e.2.2)) ∧
        live_chain abl.instrs L abl.live_before = true := by
  unfold uncover_live at h
  split at h
  case isFalse => cases h
  case isTrue hperm =>
    simp only [bind, Except.bind] at h
    cases haux : uncover_live_aux g order [] with
    | error msg => rw [haux] at h; cases h
    | ok m =>
      rw [haux] at h
      dsimp only at h
      cases hmap : (List.range g.blocks.length).mapM
          (fun i => opanic "no entry found for key" (look m i)) with
      | error msg => rw [hmap] at h; cases h
      | ok bs =>
        rw [hmap] at h
        simp only [pure, Except.pure] at h
        cases h
        have hnd : order.Nodup := hperm.nodup_iff.mpr (List.nodup_range _)
        obtain ⟨pers, dom, sound⟩ := uncover_aux_sound g order [] m hnd
          (by intro x _; rfl) haux
        obtain ⟨hlen, hpt⟩ := mapM_except_get _ _ bs hmap
        have hlen' : bs.length = g.blocks.length := by simpa using hlen
        -- translate indexed access into map lookup, in both directions
        have hup : ∀ i tb, bs[i]? = some tb → look m i = some tb := by
          intro i tb hi
          have hilt : i < g.blocks.length := by
            obtain ⟨hlt, -⟩ := List.getElem?_eq_some_iff.mp hi
            omega
          have := hpt i i tb (by simp [hilt]) hi
          cases hl : look m i with
          | none => rw [hl] at this; cases this
          | some tb' =>
            rw [hl] at this
            simp only [opanic] at this
            cases this
            rfl
        have hdown : ∀ i tb, look m i = some tb → i < g.blocks.length →
            bs[i]? = some tb := by
          intro i tb hi hilt
          have hbs : ∃ c, bs[i]? = some c := by
            have hib : i < bs.length := by omega
            exact ⟨bs[i], List.getElem?_eq_getElem hib⟩
          obtain ⟨c, hc⟩ := hbs
          have := hup i c hc
          rw [hi] at this
          cases this
          exact hc
        intro b abl hb
        have hbm : look m b = some abl := hup b abl hb
        have hblt : b < g.blocks.length := by
          obtain ⟨hlt, -⟩ := List.getElem?_eq_some_iff.mp hb
          dsimp only at hlt
          omega
        have hbord : b ∈ order := (hperm.mem_iff).mpr (by simpa using hblt)
        obtain ⟨bl, la, hbl, hbm', hmem⟩ := sound b hbord
        rw [hbm] at hbm'
        cases hbm'
        refine ⟨la, ?_, ?_⟩
        · intro v
          rw [hmem v]
          constructor
          · rintro ⟨e, he, tb, htb, hv⟩
            have hjord : jmp_block e.2.2 ∈ order := by
              rcases dom _ tb htb with hc | hc
              · cases hc
              · exact hc
            have hjlt : jmp_block e.2.2 < g.blocks.length := by
              simpa using (hperm.mem_iff).mp hjord
            exact ⟨e, he, tb, hdown _ tb htb hjlt, hv⟩
          · rintro ⟨e, he, tb, htb, hv⟩
            exact ⟨e, he, tb, hup _ tb htb, hv⟩
        · have := uncover_go_chain bl.reverse la
          simpa [uncover_live_block] using this

/-- Witness for C2: the analysis on `c2_g` (processed exit first)
satisfies the chain and exit-union properties at the entry block. -/
theorem uncover_live_correct_witness :
    ∃ L, (∀ v, v ∈ L ↔ ∃ e ∈ edges_from c2_g.edges 0, ∃ tb,
        c2_ag.blocks[jmp_block e.2.2]? = some tb ∧
        (v ∈ tb.live_before ∨ v ∈ read_jmp e.2.2)) ∧
      live_chain c2_abl.instrs L c2_abl.live_before = true :=
  uncover_live_correct c2_g [1, 0] c2_ag (by decide) 0 c2_abl (by decide)

/-! ### C8: which blocks get emitted functions -/

/-- Indexed membership gives membership in `enum`. -/
theorem mem_enumFrom_of_getElem? {α : Type} :
    ∀ (l : List α) (k n : Nat) (a : α), l[n]? = some a →
      (k + n, a) ∈ l.enumFrom k := by
  intro l
  induction l with
  | nil => intro k n a h; simp at h
  | cons x rest ih =>
    intro k n a h
    cases n with
    | zero =>
      simp only [List.getElem?_cons_zero] at h
      cases h
      simp [List.enumFrom]
    | succ n =>
      simp only [List.getElem?_cons_succ] at h
      have := ih (k + 1) n a h
      have harith : k + 1 + n = k + (n + 1) := by omega
      rw [harith] at this
      exact List.mem_cons_of_mem _ this

/-- The test loop emits a `testN` function for the test at index `n`. -/
theorem emit_tests_mem (p : RProgram) :
    ∀ (l : List (Nat × Test)) (fns : List MCFunction) (calls : String),
      emit_tests p l = .ok (fns, calls) →
      ∀ q ∈ l, ("test" ++ toString q.1) ∈ fns.map MCFunction.name := by
  intro l
  induction l with
  | nil => intro fns calls _ q hq; cases hq
  | cons it rest ih =>
    intro fns calls h q hq
    obtain ⟨i, t⟩ := it
    simp only [emit_tests] at h
    cases hbl : p.blocks[t.block]? with
    | none => rw [hbl] at h; simp [opanic, Except.bind, bind] at h
    | some bl =>
      rw [hbl] at h
      simp only [opanic, Except.bind, bind, pure, Except.pure] at h
      cases hc : emit_text_block bl with
      | error msg => rw [hc] at h; cases h
      | ok content =>
        rw [hc] at h
        cases hr : emit_tests p rest with
        | error msg => rw [hr] at h; cases h
        | ok pr =>
          rw [hr] at h
          simp only [pure, Except.pure] at h
          cases h
          rcases List.mem_cons.mp hq with hq | hq
          · subst hq
            simp
          · simp only [List.map_cons, List.mem_cons]
            exact Or.inr (ih pr.1 pr.2 (by rw [hr]) q hq)

/-- The block loop emits a `blockI` function for every listed index that
is not a test entry. -/
theorem emit_blocks_mem (p : RProgram) :
    ∀ (idxs : List Nat) (fns : List MCFunction),
      emit_blocks p idxs = .ok fns →
      ∀ i ∈ idxs, i ∉ p.tests.map Test.block →
        ("block" ++ toString i) ∈ fns.map MCFunction.name := by
  intro idxs
  induction idxs with
  | nil => intro fns _ i hi; cases hi
  | cons j rest ih =>
    intro fns h i hi hnot
    simp only [emit_blocks] at h
    rcases List.mem_cons.mp hi with hij | hij
    · subst hij
      have hcont : (p.tests.map Test.block).contains i = false := by
        cases hc : (p.tests.map Test.block).contains i
        · rfl
        · exact absurd (List.mem_of_elem_eq_true hc) hnot
      rw [hcont] at h
      simp only [Bool.false_eq_true, if_false] at h
      cases hbl : p.blocks[i]? with
      | none => rw [hbl] at h; simp [opanic, Except.bind, bind] at h
      | some bl =>
        rw [hbl] at h
        simp only [opanic, Except.bind, bind, pure, Except.pure] at h
        cases hc2 : emit_text_block bl with
        | error msg => rw [hc2] at h; cases h
        | ok content =>
          rw [hc2] at h
          cases hr : emit_blocks p rest with
          | error msg => rw [hr] at h; cases h
          | ok fns' =>
            rw [hr] at h
            simp only [pure, Except.pure] at h
            cases h
            simp
    · cases hc : (p.tests.map Test.block).contains j with
      | true =>
        rw [hc] at h
        simp only [if_true] at h
        exact ih fns h i hij hnot
      | false =>
        rw [hc] at h
        simp only [Bool.false_eq_true, if_false] at h
        cases hbl : p.blocks[j]? with
        | none => rw [hbl] at h; simp [opanic, Except.bind, bind] at h
        | some bl =>
          rw [hbl] at h
          simp only [opanic, Except.bind, bind, pure, Except.pure] at h
          cases hc2 : emit_text_block bl with
          | error msg => rw [hc2] at h; cases h
          | ok content =>
            rw [hc2] at h
            cases hr : emit_blocks p rest with
            | error msg => rw [hr] at h; cases h
            | ok fns' =>
              rw [hr] at h
              simp only [pure, Except.pure] at h
              cases h
              simp only [List.map_cons, List.mem_cons]
              exact Or.inr (ih fns' (by rw [hr]) i hij hnot)

/-- C8 (amended). Whenever emission succeeds, the package contains a
function `testN` for the test at index `N` (0-indexed), and a function
`blockI` for *every* block index `I` of the final graph that is not a
test entry — reachable or not; the source iterates all node indices with
no reachability filter. -/
theorem emit_text_names (p : RProgram) (fns : List MCFunction)
    (h : emit_text p = .ok fns) :
    (∀ (n : Nat) (t : Test), p.tests[n]? = some t →
      ("test" ++ toString n) ∈ fns.map MCFunction.name) ∧
    (∀ i : Nat, i < p.blocks.length → i ∉ p.tests.map Test.block →
      ("block" ++ toString i) ∈ fns.map MCFunction.name) := by
  unfold emit_text at h
  simp only [bind, Except.bind] at h
  cases ht : emit_tests p p.tests.enum with
  | error msg => rw [ht] at h; cases h
  | ok pr =>
    rw [ht] at h
    cases hb : emit_blocks p (List.range p.blocks.length) with
    | error msg => rw [hb] at h; cases h
    | ok block_fns =>
      rw [hb] at h
      simp only [pure, Except.pure] at h
      cases h
      constructor
      · intro n t hn
        have hmem : (n, t) ∈ p.tests.enum := by
          have := mem_enumFrom_of_getElem? p.tests 0 n t hn
          simpa [List.enum] using this
        have hm := emit_tests_mem p p.tests.enum pr.1 pr.2 (by rw [ht]) (n, t) hmem
        simp only [List.map_append, List.mem_append]
        tauto
      · intro i hil hnot
        have hi : i ∈ List.range p.blocks.length := List.mem_range.mpr hil
        have hm := emit_blocks_mem p (List.range p.blocks.length) block_fns
          (by rw [hb]) i hi hnot
        simp only [List.map_append, List.mem_append]
        tauto

/-- Counterexample to C8 as stated: compiling `(test "t" (assert
false))` yields a final graph whose block 1 is unreachable from the only
test entry (block 0), yet the emitted package contains a function named
`block1`. The claim's "blocks unreachable from every test entry do not
get a function" is false of the code, which emits every non-entry index
unconditionally. -/
theorem emit_unreachable_block_counterexample :
    pipeline_to_reify oracle_novar [false_prog] = .ok c8_rprog ∧
    c8_rprog.tests.map Test.block = [0] ∧
    reachable_set c8_rprog.edges [0] c8_rprog.blocks.length = [0, 2, 3] ∧
    (1 : Nat) ∉ reachable_set c8_rprog.edges [0] c8_rprog.blocks.length ∧
    (emit_text c8_rprog).toOption.map (List.map MCFunction.name) =
      some ["push", "pop", "test0", "block1", "block2", "block3", "run"] := by
  exact ⟨by decide, by decide, by decide, by decide, by decide⟩

/-- Witness for C8 (amended) at the same concrete program: emission
succeeds and names `test0` and the unreachable `block1`. -/
theorem emit_text_names_witness :
    ("test" ++ toString 0) ∈
      ((emit_text c8_rprog).toOption.getD []).map MCFunction.name ∧
    ("block" ++ toString 1) ∈
      ((emit_text c8_rprog).toOption.getD []).map MCFunction.name := by
  cases he : emit_text c8_rprog with
  | error msg =>
    have hs : (emit_text c8_rprog).toOption.isSome = true := by decide
    rw [he] at hs
    cases hs
  | ok fns =>
    have hn := emit_text_names c8_rprog fns he
    have h1 := hn.1 0 ⟨"t", 0⟩ (by decide)
    have h2 := hn.2 1 (by decide) (by decide)
    simp only [he, Except.toOption, Option.getD]
    exact ⟨h1, h2⟩

/-! ### C9: unbound variables abort uniquify -/

/-- A lookup succeeds exactly when the key is among the map's keys. -/
theorem look_isSome_iff_mem {env : UEnv} {n : String} :
    (look env n).isSome ↔ n ∈ env.map Prod.fst := by
  induction env with
  | nil => simp [look]
  | cons p rest ih =>
    rw [look_cons]
    by_cases h : p.1 = n
    · simp [h]
    · simp only [if_neg h, List.map_cons, List.mem_cons]
      rw [ih]
      constructor
      · exact Or.inr
      · rintro (he | he)
        · exact absurd he.symm h
        · exact he

/-- `uniquify_expr` succeeds on bound expressions and panics with the
`HashMap` index message on any unbound one. -/
theorem uniquify_expr_spec (e : PExpr) :
    ∀ env : UEnv,
      (expr_bound (env.map Prod.fst) e = true →
        ∃ u, uniquify_expr env e = .ok u) ∧
      (expr_bound (env.map Prod.fst) e = false →
        uniquify_expr env e = .error "no entry found for key") := by
  induction e with
  | litBool b =>
    intro env
    exact ⟨fun _ => ⟨.litBool b, rfl⟩, fun h => by cases h⟩
  | litInt i =>
    intro env
    exact ⟨fun _ => ⟨.litInt i, rfl⟩, fun h => by cases h⟩
  | variable_ n =>
    intro env
    constructor
    · intro h
      have : (look env n).isSome :=
        look_isSome_iff_mem.mpr (by simpa [expr_bound] using h)
      obtain ⟨v, hv⟩ := Option.isSome_iff_exists.mp this
      exact ⟨.variable_ v, by simp [uniquify_expr, hv, pure, Except.pure]⟩
    · intro h
      have : ¬ (look env n).isSome := by
        rw [look_isSome_iff_mem]
        simpa [expr_bound] using h
      cases hv : look env n with
      | none => simp [uniquify_expr, hv]
      | some v => rw [hv] at this; simp at this
  | plus l r ihl ihr =>
    intro env
    constructor
    · intro h
      obtain ⟨hl, hr⟩ := Bool.and_eq_true_iff.mp (by simpa [expr_bound] using h)
      obtain ⟨ul, hul⟩ := (ihl env).1 hl
      obtain ⟨ur, hur⟩ := (ihr env).1 hr
      exact ⟨.plus ul ur,
        by simp [uniquify_expr, hul, hur, bind, Except.bind, pure, Except.pure]⟩
    · intro h
      cases hl : expr_bound (env.map Prod.fst) l with
      | false =>
        have := (ihl env).2 hl
        simp [uniquify_expr, this, bind, Except.bind]
      | true =>
        have hr : expr_bound (env.map Prod.fst) r = false := by
          simp only [expr_bound, hl, Bool.true_and] at h
          exact h
        obtain ⟨ul, hul⟩ := (ihl env).1 hl
        have := (ihr env).2 hr
        simp [uniquify_expr, hul, this, bind, Except.bind]
  | minus l r ihl ihr =>
    intro env
    constructor
    · intro h
      obtain ⟨hl, hr⟩ := Bool.and_eq_true_iff.mp (by simpa [expr_bound] using h)
      obtain ⟨ul, hul⟩ := (ihl env).1 hl
      obtain ⟨ur, hur⟩ := (ihr env).1 hr
      exact ⟨.minus ul ur,
        by simp [uniquify_expr, hul, hur, bind, Except.bind, pure, Except.pure]⟩
    · intro h
      cases hl : expr_bound (env.map Prod.fst) l with
      | false =>
        have := (ihl env).2 hl
        simp [uniquify_expr, this, bind, Except.bind]
      | true =>
        have hr : expr_bound (env.map Prod.fst) r = false := by
          simp only [expr_bound, hl, Bool.true_and] at h
          exact h
        obtain ⟨ul, hul⟩ := (ihl env).1 hl
        have := (ihr env).2 hr
        simp [uniquify_expr, hul, this, bind, Except.bind]
  | times l r ihl ihr =>
    intro env
    constructor
    · intro h
      obtain ⟨hl, hr⟩ := Bool.and_eq_true_iff.mp (by simpa [expr_bound] using h)
      obtain ⟨ul, hul⟩ := (ihl env).1 hl
      obtain ⟨ur, hur⟩ := (ihr env).1 hr
      exact ⟨.times ul ur,
        by simp [uniquify_expr, hul, hur, bind, Except.bind, pure, Except.pure]⟩
    · intro h
      cases hl : expr_bound (env.map Prod.fst) l with
      | false =>
        have := (ihl env).2 hl
        simp [uniquify_expr, this, bind, Except.bind]
      | true =>
        have hr : expr_bound (env.map Prod.fst) r = false := by
          simp only [expr_bound, hl, Bool.true_and] at h
          exact h
        obtain ⟨ul, hul⟩ := (ihl env).1 hl
        have := (ihr env).2 hr
        simp [uniquify_expr, hul, this, bind, Except.bind]
  | divide l r ihl ihr =>
    intro env
    constructor
    · intro h
      obtain ⟨hl, hr⟩ := Bool.and_eq_true_iff.mp (by simpa [expr_bound] using h)
      obtain ⟨ul, hul⟩ := (ihl env).1 hl
      obtain ⟨ur, hur⟩ := (ihr env).1 hr
      exact ⟨.divide ul ur,
        by simp [uniquify_expr, hul, hur, bind, Except.bind, pure, Except.pure]⟩
    · intro h
      cases hl : expr_bound (env.map Prod.fst) l with
      | false =>
        have := (ihl env).2 hl
        simp [uniquify_expr, this, bind, Except.bind]
      | true =>
        have hr : expr_bound (env.map Prod.fst) r = false := by
          simp only [expr_bound, hl, Bool.true_and] at h
          exact h
        obtain ⟨ul, hul⟩ := (ihl env).1 hl
        have := (ihr env).2 hr
        simp [uniquify_expr, hul, this, bind, Except.bind]
  | eq l r ihl ihr =>
    intro env
    constructor
    · intro h
      obtain ⟨hl, hr⟩ := Bool.and_eq_true_iff.mp (by simpa [expr_bound] using h)
      obtain ⟨ul, hul⟩ := (ihl env).1 hl
      obtain ⟨ur, hur⟩ := (ihr env).1 hr
      exact ⟨.eq ul ur,
        by simp [uniquify_expr, hul, hur, bind, Except.bind, pure, Except.pure]⟩
    · intro h
      cases hl : expr_bound (env.map Prod.fst) l with
      | false =>
        have := (ihl env).2 hl
        simp [uniquify_expr, this, bind, Except.bind]
      | true =>
        have hr : expr_bound (env.map Prod.fst) r = false := by
          simp only [expr_bound, hl, Bool.true_and] at h
          exact h
        obtain ⟨ul, hul⟩ := (ihl env).1 hl
        have := (ihr env).2 hr
        simp [uniquify_expr, hul, this, bind, Except.bind]
  | ifE c t e ihc iht ihe =>
    intro env
    constructor
    · intro h
      simp only [expr_bound, Bool.and_eq_true] at h
      obtain ⟨⟨hc, ht⟩, he⟩ := h
      obtain ⟨uc, huc⟩ := (ihc env).1 hc
      obtain ⟨ut, hut⟩ := (iht env).1 ht
      obtain ⟨ue, hue⟩ := (ihe env).1 he
      exact ⟨.ifE uc ut ue,
        by simp [uniquify_expr, huc, hut, hue, bind, Except.bind, pure, Except.pure]⟩
    · intro h
      cases hc : expr_bound (env.map Prod.fst) c with
      | false =>
        have := (ihc env).2 hc
        simp [uniquify_expr, this, bind, Except.bind]
      | true =>
        obtain ⟨uc, huc⟩ := (ihc env).1 hc
        cases ht : expr_bound (env.map Prod.fst) t with
        | false =>
          have := (iht env).2 ht
          simp [uniquify_expr, huc, this, bind, Except.bind]
        | true =>
          obtain ⟨ut, hut⟩ := (iht env).1 ht
          have he : expr_bound (env.map Prod.fst) e = false := by
            simp only [expr_bound, hc, ht, Bool.true_and] at h
            exact h
          have := (ihe env).2 he
          simp [uniquify_expr, huc, hut, this, bind, Except.bind]

/-- `uniquify_stmts` succeeds on bound statement lists and panics with
the index message otherwise. -/
theorem uniquify_stmts_spec :
    ∀ (stmts : List PStmt) (env : UEnv) (vf : Nat),
      (stmts_bound (env.map Prod.fst) stmts = true →
        ∃ r, uniquify_stmts env vf stmts = .ok r) ∧
      (stmts_bound (env.map Prod.fst) stmts = false →
        uniquify_stmts env vf stmts = .error "no entry found for key") := by
  intro stmts
  induction stmts with
  | nil =>
    intro env vf
    exact ⟨fun _ => ⟨([], vf), rfl⟩, fun h => by cases h⟩
  | cons stmt rest ih =>
    intro env vf
    cases stmt with
    | assert e =>
      constructor
      · intro h
        simp only [stmts_bound, Bool.and_eq_true] at h
        obtain ⟨ue, hue⟩ := (uniquify_expr_spec e env).1 h.1
        obtain ⟨r, hr⟩ := (ih env vf).1 h.2
        exact ⟨(.assert ue :: r.1, r.2),
          by simp [uniquify_stmts, hue, hr, bind, Except.bind, pure, Except.pure]⟩
      · intro h
        cases he : expr_bound (env.map Prod.fst) e with
        | false =>
          have := (uniquify_expr_spec e env).2 he
          simp [uniquify_stmts, this, bind, Except.bind]
        | true =>
          obtain ⟨ue, hue⟩ := (uniquify_expr_spec e env).1 he
          have hrest : stmts_bound (env.map Prod.fst) rest = false := by
            simp only [stmts_bound, he, Bool.true_and] at h
            exact h
          have := (ih env vf).2 hrest
          simp [uniquify_stmts, hue, this, bind, Except.bind]
    | assertEq l r =>
      constructor
      · intro h
        simp only [stmts_bound, Bool.and_eq_true] at h
        obtain ⟨⟨hl, hr⟩, hrest⟩ := h
        obtain ⟨ul, hul⟩ := (uniquify_expr_spec l env).1 hl
        obtain ⟨ur, hur⟩ := (uniquify_expr_spec r env).1 hr
        obtain ⟨q, hq⟩ := (ih env vf).1 hrest
        exact ⟨(.assertEq ul ur :: q.1, q.2),
          by simp [uniquify_stmts, hul, hur, hq, bind, Except.bind, pure,
            Except.pure]⟩
      · intro h
        cases hl : expr_bound (env.map Prod.fst) l with
        | false =>
          have := (uniquify_expr_spec l env).2 hl
          simp [uniquify_stmts, this, bind, Except.bind]
        | true =>
          obtain ⟨ul, hul⟩ := (uniquify_expr_spec l env).1 hl
          cases hr : expr_bound (env.map Prod.fst) r with
          | false =>
            have := (uniquify_expr_spec r env).2 hr
            simp [uniquify_stmts, hul, this, bind, Except.bind]
          | true =>
            obtain ⟨ur, hur⟩ := (uniquify_expr_spec r env).1 hr
            have hrest : stmts_bound (env.map Prod.fst) rest = false := by
              simp only [stmts_bound, hl, hr, Bool.true_and] at h
              exact h
            have := (ih env vf).2 hrest
            simp [uniquify_stmts, hul, hur, this, bind, Except.bind]
    | command text =>
      constructor
      · intro h
        obtain ⟨q, hq⟩ := (ih env vf).1 (by simpa [stmts_bound] using h)
        exact ⟨(.command text :: q.1, q.2),
          by simp [uniquify_stmts, hq, bind, Except.bind, pure, Except.pure]⟩
      · intro h
        have := (ih env vf).2 (by simpa [stmts_bound] using h)
        simp [uniquify_stmts, this, bind, Except.bind]
    | letS n e =>
      constructor
      · intro h
        simp only [stmts_bound, Bool.and_eq_true] at h
        obtain ⟨ue, hue⟩ := (uniquify_expr_spec e env).1 h.1
        obtain ⟨q, hq⟩ := (ih ((n, ⟨vf, some n⟩) :: env) (vf + 1)).1
          (by simpa using h.2)
        exact ⟨(.letS ⟨vf, some n⟩ ue :: q.1, q.2),
          by simp [uniquify_stmts, hue, hq, bind, Except.bind, pure, Except.pure]⟩
      · intro h
        cases he : expr_bound (env.map Prod.fst) e with
        | false =>
          have := (uniquify_expr_spec e env).2 he
          simp [uniquify_stmts, this, bind, Except.bind]
        | true =>
          obtain ⟨ue, hue⟩ := (uniquify_expr_spec e env).1 he
          have hrest : stmts_bound (n :: env.map Prod.fst) rest = false := by
            simp only [stmts_bound, he, Bool.true_and] at h
            exact h
          have := (ih ((n, ⟨vf, some n⟩) :: env) (vf + 1)).2 (by simpa using hrest)
          simp [uniquify_stmts, hue, this, bind, Except.bind]

/-- C9 (amended). A program with an unbound variable use makes uniquify
abort fatally — the whole compilation returns the `HashMap` index panic
"no entry found for key", a generic message that does not name the
variable — and no output is produced. -/
theorem uniquify_unbound_fatal (defs : List PDef)
    (h : defs_bound defs = false) :
    uniquify defs = .error "no entry found for key" := by
  unfold uniquify
  suffices hgen : ∀ (defs : List PDef) (vf : Nat), defs_bound defs = false →
      uniquify_defs vf defs = .error "no entry found for key" from
    hgen defs 0 h
  intro defs
  induction defs with
  | nil => intro vf h; simp [defs_bound] at h
  | cons d rest ih =>
    intro vf h
    cases hd : stmts_bound [] d.stmts with
    | false =>
      have := (uniquify_stmts_spec d.stmts [] vf).2 (by simpa using hd)
      simp [uniquify_defs, this, bind, Except.bind]
    | true =>
      have hrest : defs_bound rest = false := by
        simp only [defs_bound, List.all_cons, hd, Bool.true_and] at h
        exact h
      obtain ⟨r, hr⟩ := (uniquify_stmts_spec d.stmts [] vf).1 (by simpa using hd)
      have := ih r.2 hrest
      simp [uniquify_defs, hr, this, bind, Except.bind]

/-- Witness for C9 (amended): the unbound use of `foo` aborts the pass
with the generic message. -/
theorem uniquify_unbound_fatal_witness :
    uniquify [⟨"t", [.assert (.variable_ "foo")]⟩] =
      .error "no entry found for key" :=
  uniquify_unbound_fatal [⟨"t", [.assert (.variable_ "foo")]⟩] (by decide)

/-- Counterexample to C9 as stated: the diagnostic does not name the
unbound variable. Two programs whose unbound variables are `foo` and
`bar` abort with the identical fixed message, which contains neither
name. -/
theorem unbound_diagnostic_counterexample :
    uniquify [⟨"t", [.assert (.variable_ "bar")]⟩] =
      .error "no entry found for key" ∧
    uniquify [⟨"t", [.assertEq (.variable_ "baz") (.litInt 1)]⟩] =
      .error "no entry found for key" ∧
    has_substr "no entry found for key" "bar" = false ∧
    has_substr "no entry found for key" "baz" = false := by
  exact ⟨by decide, by decide, by decide, by decide⟩

/-! ### C10: the Result channel of `compile` carries only front-end
errors -/

/-- C10. Once lexing and parsing have succeeded, `compile` never returns
an error of the lexer's or parser's kind: the core passes feed the
`Result` only through panics. (The spec-modelled move-graph node set
sits inside the pipeline; it does not affect which error constructors
are reachable.) -/
theorem compile_core_passes_no_error (Toks : Type)
    (lexf : String → Except String Toks)
    (parsef : Toks → Except String (List PDef)) (O : Oracles)
    (source : String) (toks : Toks) (defs : List PDef)
    (hl : lexf source = .ok toks) (hp : parsef toks = .ok defs) :
    ∀ m : String,
      compile_model Toks lexf parsef O source ≠ .error (.lexError m) ∧
      compile_model Toks lexf parsef O source ≠ .error (.parseError m) := by
  intro m
  unfold compile_model
  rw [hl]
  dsimp only
  rw [hp]
  dsimp only
  cases core_pipeline O defs with
  | error msg => exact ⟨by simp, by simp⟩
  | ok fns => exact ⟨by simp, by simp⟩

/-- Witness for C10 with a trivial front end that accepts everything and
parses to the concrete `(test "t" (assert false))` program. -/
theorem compile_core_passes_no_error_witness :
    compile_model Unit (fun _ => .ok ()) (fun _ => .ok [false_prog])
      oracle_novar "" ≠ .error (.lexError "boom") ∧
    compile_model Unit (fun _ => .ok ()) (fun _ => .ok [false_prog])
      oracle_novar "" ≠ .error (.parseError "boom") :=
  compile_core_passes_no_error Unit (fun _ => .ok ()) (fun _ => .ok [false_prog])
    oracle_novar "" () [false_prog] rfl rfl "boom"

/-! ### C4: two runs on the same input need not agree -/

/-- C4. Evaluation of the compiler at the failing input
`(test "t" (asserteq (+ 1 2) 3))`: both pop orders of its two
equal-priority interfering temporaries are realizable by the coloring
queue (both runs are accepted by the validity gate and complete), yet
the two runs produce different packages — the `test0` function text
swaps `r1` and `r2`. Which order the real binary realizes depends on
the randomly seeded iteration order of the `HashSet<Var>` the
interference nodes are collected into, so two runs of the same binary
on the same input can differ byte for byte. -/
theorem compile_two_runs_differ :
    (core_pipeline oracle_a [arith_prog]).toOption.isSome = true ∧
    (core_pipeline oracle_b [arith_prog]).toOption.isSome = true ∧
    core_pipeline oracle_a [arith_prog] ≠ core_pipeline oracle_b [arith_prog] := by
  refine ⟨by decide, by decide, ?_⟩
  intro h
  exact absurd (congrArg test0_content h) (by decide)

/-! ### C6: the CFG shape of a lowered `If` -/

theorem linearize_expr_ifE_eq (cond thn els : DExpr) (st : LinState) (cur : Nat) :
    linearize_expr st cur (.ifE cond thn els) =
      match cond with
      | .eq l r =>
        let (st₁, cur₁, la) := linearize_expr st cur l
        let (st₂, cur₂, ra) := linearize_expr st₁ cur₁ r
        linearize_if_full st₂ cur₂ (.cmp .eqC la ra) thn els
      | c =>
        let (st₁, cur₁, a) := linearize_expr st cur c
        linearize_if_full st₁ cur₁ (.atm a) thn els := by
  cases cond <;> rfl

theorem edges_from_append {γ : Type} (es ds : List (Nat × Nat × γ)) (n : Nat) :
    edges_from (es ++ ds) n = edges_from es n ++ edges_from ds n := by
  simp [edges_from, List.filter_append]

theorem edges_from_nil_of_ne {γ : Type} {ds : List (Nat × Nat × γ)} {n : Nat}
    (h : ∀ d ∈ ds, d.1 ≠ n) : edges_from ds n = [] := by
  simp only [edges_from, List.filter_eq_nil_iff]
  intro d hd
  simpa using h d hd

theorem edges_from_single_self {γ : Type} (a b : Nat) (j : γ) :
    edges_from [(a, b, j)] a = [(a, b, j)] := by
  simp [edges_from]

/-- Appending edges that start outside an event's pinned nodes keeps the
event's shape. -/
theorem ev_spec_extend {ev : IfEvent} {es Δ : List LEdge}
    (h : ev_spec ev es) (hΔ : ∀ d ∈ Δ, d.1 ∉ ev_nodes ev) :
    ev_spec ev (es ++ Δ) := by
  obtain ⟨h1, h2, h3⟩ := h
  have hnil : ∀ n ∈ ev_nodes ev, edges_from Δ n = [] := by
    intro n hn
    exact edges_from_nil_of_ne (fun d hd he => hΔ d hd (he ▸ hn))
  refine ⟨?_, ?_, ?_⟩
  · rw [edges_from_append, h1, hnil ev.branch (by simp [ev_nodes])]
    simp
  · rw [edges_from_append, h2, hnil ev.thn_final (by simp [ev_nodes])]
    simp
  · rw [edges_from_append, h3, hnil ev.els_final (by simp [ev_nodes])]
    simp

theorem lin_frame_refl (st : LinState) (cur : Nat) : lin_frame st cur st cur := by
  refine ⟨le_refl _, Or.inl rfl, ⟨[], by simp⟩, ⟨[], by simp⟩, id⟩

theorem lin_frame_trans {s₀ : LinState} {c₀ : Nat} {s₁ : LinState} {c₁ : Nat}
    {s₂ : LinState} {c₂ : Nat} (f₁ : lin_frame s₀ c₀ s₁ c₁)
    (f₂ : lin_frame s₁ c₁ s₂ c₂) : lin_frame s₀ c₀ s₂ c₂ := by
  obtain ⟨l₁, hc₁, ⟨Δ₁, he₁, hs₁⟩, ⟨Λ₁, hg₁, hn₁⟩, hi₁⟩ := f₁
  obtain ⟨l₂, hc₂, ⟨Δ₂, he₂, hs₂⟩, ⟨Λ₂, hg₂, hn₂⟩, hi₂⟩ := f₂
  refine ⟨le_trans l₁ l₂, ?_, ⟨Δ₁ ++ Δ₂, ?_, ?_⟩, ⟨Λ₁ ++ Λ₂, ?_, ?_⟩,
    fun h => hi₂ (hi₁ h)⟩
  · rcases hc₂ with rfl | ⟨ha, hb⟩
    · rcases hc₁ with rfl | ⟨ha, hb⟩
      · exact Or.inl rfl
      · exact Or.inr ⟨ha, lt_of_lt_of_le hb l₂⟩
    · exact Or.inr ⟨le_trans l₁ ha, hb⟩
  · rw [he₂, he₁, List.append_assoc]
  · intro e he
    rcases List.mem_append.mp he with he | he
    · exact hs₁ e he
    · rcases hs₂ e he with h | h
      · rcases hc₁ with h' | h'
        · exact Or.inl (h.trans h')
        · exact Or.inr (h ▸ h'.1)
      · exact Or.inr (le_trans l₁ h)
  · rw [hg₂, hg₁, List.append_assoc]
  · intro ev hev n hn
    rcases List.mem_append.mp hev with hev | hev
    · exact hn₁ ev hev n hn
    · rcases hn₂ ev hev n hn with h | h
      · rcases hc₁ with h' | h'
        · exact Or.inl (h.trans h')
        · exact Or.inr (h ▸ h'.1)
      · exact Or.inr (le_trans l₁ h)

theorem append_stmt_blocks_length (st : LinState) (i : Nat) (x : LStmt) :
    (append_stmt st i x).blocks.length = st.blocks.length := by
  simp [append_stmt]

theorem lin_frame_append_stmt (st : LinState) (cur : Nat) (x : LStmt) :
    lin_frame st cur (append_stmt st cur x) cur := by
  refine ⟨le_of_eq (append_stmt_blocks_length st cur x).symm, Or.inl rfl,
    ⟨[], by simp [append_stmt], fun e he => absurd he (List.not_mem_nil e)⟩,
    ⟨[], by simp [append_stmt], fun ev hev => absurd hev (List.not_mem_nil ev)⟩,
    ?_⟩
  intro ⟨h1, h2, ⟨h3, h4⟩, h5⟩
  refine ⟨by rw [append_stmt_blocks_length]; exact h1, h2,
    ⟨?_, ?_⟩, h5⟩
  · intro e he
    rw [append_stmt_blocks_length]
    exact h3 e he
  · intro ev hev
    obtain ⟨hs, hb⟩ := h4 ev hev
    refine ⟨hs, ?_⟩
    intro n hn
    rw [append_stmt_blocks_length]
    exact hb n hn

/-- Attaching a fresh node by a single edge from a block that is not one
of the pinned event nodes yields a valid lowering state at the fresh
node. -/
theorem lin_inv_fresh (st st' : LinState) (cur : Nat) (j : LJmp)
    (hb : st'.blocks.length = st.blocks.length + 1)
    (he : st'.edges = st.edges ++ [(cur, st.blocks.length, j)])
    (hl : st'.log = st.log)
    (htop : top_inv st) (hcur : cur < st.blocks.length)
    (hev : ∀ ev ∈ st.log, cur ∉ ev_nodes ev) :
    lin_inv st' st.blocks.length := by
  obtain ⟨hsrc, hevs⟩ := htop
  refine ⟨by omega, ?_, ⟨?_, ?_⟩, ?_⟩
  · rw [he, edges_from_append]
    rw [edges_from_nil_of_ne (fun d hd => by
      have := hsrc d hd
      omega)]
    rw [edges_from_nil_of_ne (fun d hd => by
      rcases List.mem_singleton.mp hd with rfl
      simpa using Nat.ne_of_lt hcur)]
    rfl
  · intro e hee
    rw [he] at hee
    rcases List.mem_append.mp hee with h | h
    · have := hsrc e h
      omega
    · rcases List.mem_singleton.mp h with rfl
      omega
  · intro ev hevm
    rw [hl] at hevm
    obtain ⟨hs, hbd⟩ := hevs ev hevm
    refine ⟨?_, ?_⟩
    · rw [he]
      exact ev_spec_extend hs (fun d hd => by
        rcases List.mem_singleton.mp hd with rfl
        exact hev ev hevm)
    · intro n hn
      have := hbd n hn
      omega
  · intro ev hevm
    rw [hl] at hevm
    obtain ⟨hs, hbd⟩ := hevs ev hevm
    intro hmem
    have := hbd _ hmem
    omega

theorem if_tail_frame (thn els : DExpr)
    (iht : ∀ s c, lin_frame s c (linearize_expr s c thn).1
      (linearize_expr s c thn).2.1)
    (ihe : ∀ s c, lin_frame s c (linearize_expr s c els).1
      (linearize_expr s c els).2.1)
    (st : LinState) (cur : Nat) (lcond : LCond) :
    lin_frame st cur (linearize_if_full st cur lcond thn els).1
      (linearize_if_full st cur lcond thn els).2.1 := by
  have F1 := iht (⟨st.blocks ++ [[]],
      st.edges ++ [(cur, st.blocks.length, .ifJ lcond)], st.vf + 1, st.log⟩ : LinState)
    st.blocks.length
  rcases h1 : linearize_expr (⟨st.blocks ++ [[]],
      st.edges ++ [(cur, st.blocks.length, .ifJ lcond)], st.vf + 1, st.log⟩ : LinState)
    st.blocks.length thn with ⟨st₆, cur_t, ta⟩
  rw [h1] at F1
  unfold linearize_if_full
  dsimp only [fresh_tmp, add_node, add_edge, append_stmt, linearize_if_tail]
  rw [h1]
  dsimp only
  dsimp only at F1
  set w : List LStmt :=
    st₆.blocks.getD cur_t [] ++ [LStmt.assign ⟨st.vf, none⟩ (.atom ta)] with hw
  set B : List (List LStmt) := st₆.blocks.set cur_t w with hB
  set M : Nat := B.length with hM
  have F2 := ihe (⟨B ++ [[]], st₆.edges ++ [(cur, M, .unlessJ lcond)],
      st₆.vf, st₆.log⟩ : LinState) M
  rcases h2 : linearize_expr (⟨B ++ [[]],
      st₆.edges ++ [(cur, M, .unlessJ lcond)], st₆.vf, st₆.log⟩ : LinState) M els
    with ⟨st₁₀, cur_e, ea⟩
  rw [h2] at F2 ⊢
  dsimp only at F2 ⊢
  set w2 : List LStmt :=
    st₁₀.blocks.getD cur_e [] ++ [LStmt.assign ⟨st.vf, none⟩ (.atom ea)] with hw2
  set B2 : List (List LStmt) := st₁₀.blocks.set cur_e w2 with hB2
  set J : Nat := B2.length with hJ
  obtain ⟨l₁, hc₁, ⟨Δt, heΔt, hsΔt⟩, ⟨Λt, hlΛt, hnΛt⟩, hi₁⟩ := F1
  obtain ⟨l₂, hc₂, ⟨Δe, heΔe, hsΔe⟩, ⟨Λe, hlΛe, hnΛe⟩, hi₂⟩ := F2
  dsimp only at l₁ hc₁ heΔt hsΔt hlΛt hnΛt l₂ hc₂ heΔe hsΔe hlΛe hnΛe
  simp only [List.length_append, List.length_singleton] at l₁ hc₁ hsΔt hnΛt l₂ hc₂ hsΔe hnΛe
  have hBlen : B.length = st₆.blocks.length := by rw [hB]; simp
  have hB2len : B2.length = st₁₀.blocks.length := by rw [hB2]; simp
  have hctlt : cur_t < st₆.blocks.length := by
    rcases hc₁ with h | ⟨h', h''⟩ <;> omega
  have hctge : st.blocks.length ≤ cur_t := by
    rcases hc₁ with h | ⟨h', h''⟩ <;> omega
  have hcelt : cur_e < st₁₀.blocks.length := by
    rcases hc₂ with h | ⟨h', h''⟩ <;> omega
  have hcege : M ≤ cur_e := by
    rcases hc₂ with h | ⟨h', h''⟩ <;> omega
  refine ⟨?_, ?_,
    ⟨(cur, st.blocks.length, .ifJ lcond) ::
      (Δt ++ ((cur, M, .unlessJ lcond) ::
        (Δe ++ [(cur_t, J, .unconditional), (cur_e, J, .unconditional)]))), ?_, ?_⟩,
    ⟨Λt ++ Λe ++ [⟨cur, lcond, st.blocks.length, M, cur_t, cur_e, J⟩], ?_, ?_⟩, ?_⟩
  · dsimp only
    simp only [List.length_append, List.length_singleton]
    omega
  · refine Or.inr ⟨by omega, ?_⟩
    dsimp only
    simp only [List.length_append, List.length_singleton]
    omega
  · dsimp only
    rw [heΔe, heΔt]
    simp only [List.append_assoc, List.singleton_append, List.cons_append, List.nil_append]
  · intro e he
    simp only [List.mem_cons, List.mem_append, List.mem_singleton,
      List.not_mem_nil, or_false] at he
    rcases he with rfl | he | rfl | he | rfl | rfl
    · exact Or.inl rfl
    · rcases hsΔt e he with h | h <;> omega
    · exact Or.inl rfl
    · rcases hsΔe e he with h | h <;> omega
    · dsimp only
      omega
    · dsimp only
      omega
  · dsimp only
    rw [hlΛe, hlΛt]
    simp only [List.append_assoc, List.singleton_append, List.cons_append, List.nil_append]
  · intro ev hev n hn
    simp only [List.mem_append, List.mem_singleton] at hev
    rcases hev with (hev | hev) | rfl
    · rcases hnΛt ev hev n hn with h | h <;> omega
    · rcases hnΛe ev hev n hn with h | h <;> omega
    · simp only [ev_nodes, List.mem_cons, List.not_mem_nil, or_false] at hn
      rcases hn with rfl | rfl | rfl
      · exact Or.inl rfl
      · exact Or.inr hctge
      · exact Or.inr (by omega)
  · intro hinv
    obtain ⟨hcl, hce, ⟨hsrc, hevs⟩, hcnev⟩ := hinv
    have stepA : lin_inv (⟨st.blocks ++ [[]],
        st.edges ++ [(cur, st.blocks.length, .ifJ lcond)], st.vf + 1, st.log⟩ : LinState)
        st.blocks.length :=
      lin_inv_fresh st _ cur (.ifJ lcond) (by simp) rfl rfl ⟨hsrc, hevs⟩ hcl hcnev
    obtain ⟨hct6, hef6, ⟨hsrc6, hevs6⟩, hnev6⟩ := hi₁ stepA
    have htop7 : top_inv (⟨B, st₆.edges, st₆.vf, st₆.log⟩ : LinState) := by
      refine ⟨fun e he => ?_, fun ev hev => ?_⟩
      · dsimp only at he ⊢
        have := hsrc6 e he
        omega
      · dsimp only at hev ⊢
        refine ⟨(hevs6 ev hev).1, fun n hn => ?_⟩
        have := (hevs6 ev hev).2 n hn
        omega
    have hev7 : ∀ ev ∈ (⟨B, st₆.edges, st₆.vf, st₆.log⟩ : LinState).log,
        cur ∉ ev_nodes ev := by
      intro ev hev
      dsimp only at hev
      rw [hlΛt] at hev
      rcases List.mem_append.mp hev with h | h
      · exact hcnev ev h
      · intro hmem
        rcases hnΛt ev h cur hmem with h' | h' <;> omega
    have stepC : lin_inv (⟨B ++ [[]], st₆.edges ++ [(cur, M, .unlessJ lcond)],
        st₆.vf, st₆.log⟩ : LinState) M :=
      lin_inv_fresh (⟨B, st₆.edges, st₆.vf, st₆.log⟩ : LinState) _ cur (.unlessJ lcond)
        (by simp) rfl rfl htop7 (by dsimp only; omega) hev7
    obtain ⟨hcel, hef10, ⟨hsrc10, hevs10⟩, hnev10⟩ := hi₂ stepC
    refine ⟨?_, ?_, ⟨?_, ?_⟩, ?_⟩
    · dsimp only
      simp only [List.length_append, List.length_singleton]
      omega
    · dsimp only
      rw [edges_from_append, edges_from_append]
      rw [edges_from_nil_of_ne (fun d hd => by have := hsrc10 d hd; omega)]
      have e4 : edges_from [((cur_t, J, LJmp.unconditional) : LEdge)] J = [] :=
        edges_from_nil_of_ne (fun d hd => by
          rcases List.mem_singleton.mp hd with rfl
          dsimp only
          omega)
      have e5 : edges_from [((cur_e, J, LJmp.unconditional) : LEdge)] J = [] :=
        edges_from_nil_of_ne (fun d hd => by
          rcases List.mem_singleton.mp hd with rfl
          dsimp only
          omega)
      rw [e4, e5]
      rfl
    · intro e he
      dsimp only at he ⊢
      simp only [List.length_append, List.length_singleton]
      rcases List.mem_append.mp he with he' | he'
      · rcases List.mem_append.mp he' with he'' | he''
        · have := hsrc10 e he''
          omega
        · rcases List.mem_singleton.mp he'' with rfl
          dsimp only
          omega
      · rcases List.mem_singleton.mp he' with rfl
        dsimp only
        omega
    · intro ev hev
      dsimp only at hev ⊢
      rcases List.mem_append.mp hev with hev' | hev'
      · have hta : cur_t ∉ ev_nodes ev := by
          rw [hlΛe] at hev'
          rcases List.mem_append.mp hev' with h | h
          · exact hnev6 ev h
          · intro hmem
            rcases hnΛe ev h cur_t hmem with h' | h' <;> omega
        have hea : cur_e ∉ ev_nodes ev := hnev10 ev hev'
        refine ⟨?_, fun n hn => ?_⟩
        · exact ev_spec_extend (ev_spec_extend (hevs10 ev hev').1
            (fun d hd => by rcases List.mem_singleton.mp hd with rfl; exact hta))
            (fun d hd => by rcases List.mem_singleton.mp hd with rfl; exact hea)
        · simp only [List.length_append, List.length_singleton]
          have := (hevs10 ev hev').2 n hn
          omega
      · rcases List.mem_singleton.mp hev' with rfl
        refine ⟨⟨?_, ?_, ?_⟩, fun n hn => ?_⟩
        · dsimp only
          have e2 : edges_from Δt cur = [] :=
            edges_from_nil_of_ne (fun d hd => by rcases hsΔt d hd with h | h <;> omega)
          have e3 : edges_from Δe cur = [] :=
            edges_from_nil_of_ne (fun d hd => by rcases hsΔe d hd with h | h <;> omega)
          have e4 : edges_from [((cur_t, J, LJmp.unconditional) : LEdge)] cur = [] :=
            edges_from_nil_of_ne (fun d hd => by
              rcases List.mem_singleton.mp hd with rfl
              dsimp only
              omega)
          have e5 : edges_from [((cur_e, J, LJmp.unconditional) : LEdge)] cur = [] :=
            edges_from_nil_of_ne (fun d hd => by
              rcases List.mem_singleton.mp hd with rfl
              dsimp only
              omega)
          rw [heΔe, heΔt]
          simp only [edges_from_append, hce, e2, e3, e4, e5, edges_from_single_self]
          simp
        · dsimp only
          have e3 : edges_from Δe cur_t = [] :=
            edges_from_nil_of_ne (fun d hd => by rcases hsΔe d hd with h | h <;> omega)
          have e4 : edges_from [((cur, M, LJmp.unlessJ lcond) : LEdge)] cur_t = [] :=
            edges_from_nil_of_ne (fun d hd => by
              rcases List.mem_singleton.mp hd with rfl
              dsimp only
              omega)
          have e5 : edges_from [((cur_e, J, LJmp.unconditional) : LEdge)] cur_t = [] :=
            edges_from_nil_of_ne (fun d hd => by
              rcases List.mem_singleton.mp hd with rfl
              dsimp only
              omega)
          rw [heΔe]
          simp only [edges_from_append, hef6, e3, e4, e5, edges_from_single_self]
          simp
        · dsimp only
          have e4 : edges_from [((cur_t, J, LJmp.unconditional) : LEdge)] cur_e = [] :=
            edges_from_nil_of_ne (fun d hd => by
              rcases List.mem_singleton.mp hd with rfl
              dsimp only
              omega)
          simp only [edges_from_append, hef10, e4, edges_from_single_self]
          simp
        · simp only [ev_nodes, List.mem_cons, List.not_mem_nil, or_false] at hn
          simp only [List.length_append, List.length_singleton]
          rcases hn with rfl | rfl | rfl <;> omega
    · intro ev hev
      dsimp only at hev
      rcases List.mem_append.mp hev with hev' | hev'
      · intro hmem
        have := (hevs10 ev hev').2 _ hmem
        omega
      · rcases List.mem_singleton.mp hev' with rfl
        intro hmem
        simp only [ev_nodes, List.mem_cons, List.not_mem_nil, or_false] at hmem
        rcases hmem with h | h | h <;> omega

theorem lin_inv_ext {s₁ : LinState} (s₂ : LinState) {c : Nat}
    (hb : s₂.blocks = s₁.blocks) (he : s₂.edges = s₁.edges) (hl : s₂.log = s₁.log)
    (h : lin_inv s₁ c) : lin_inv s₂ c := by
  obtain ⟨h1, h2, ⟨h3, h4⟩, h5⟩ := h
  refine ⟨by rw [hb]; exact h1, by rw [he]; exact h2,
    ⟨by rw [he, hb]; exact h3, by rw [hl, he, hb]; exact h4⟩, by rw [hl]; exact h5⟩

theorem lin_frame_ext {s : LinState} {c : Nat} {s₁ : LinState} {c' : Nat}
    (s₂ : LinState) (hb : s₂.blocks = s₁.blocks) (he : s₂.edges = s₁.edges)
    (hl : s₂.log = s₁.log) (h : lin_frame s c s₁ c') : lin_frame s c s₂ c' := by
  obtain ⟨l, hc, ⟨Δ, hΔ, hs⟩, ⟨Λ, hΛ, hn⟩, hi⟩ := h
  refine ⟨by rw [hb]; exact l, ?_, ⟨Δ, by rw [he]; exact hΔ, hs⟩,
    ⟨Λ, by rw [hl]; exact hΛ, hn⟩,
    fun hv => lin_inv_ext s₂ hb he hl (hi hv)⟩
  rcases hc with h' | ⟨h', h''⟩
  · exact Or.inl h'
  · exact Or.inr ⟨h', by rw [hb]; exact h''⟩

/-- Frame of the shared tail of the binary-operator lowerings. -/
theorem binary_frame (l r : DExpr)
    (ihl : ∀ s k, lin_frame s k (linearize_expr s k l).1 (linearize_expr s k l).2.1)
    (ihr : ∀ s k, lin_frame s k (linearize_expr s k r).1 (linearize_expr s k r).2.1)
    (st : LinState) (cur : Nat) (f : Var → LAtom → LAtom → LStmt) :
    lin_frame st cur
      (let (st₁, cur₁, la) := linearize_expr st cur l
       let (st₂, cur₂, ra) := linearize_expr st₁ cur₁ r
       let (st₃, v) := fresh_tmp st₂
       ((append_stmt st₃ cur₂ (f v la ra), cur₂, LAtom.varA v) :
         LinState × Nat × LAtom)).1
      (let (st₁, cur₁, la) := linearize_expr st cur l
       let (st₂, cur₂, ra) := linearize_expr st₁ cur₁ r
       let (st₃, v) := fresh_tmp st₂
       ((append_stmt st₃ cur₂ (f v la ra), cur₂, LAtom.varA v) :
         LinState × Nat × LAtom)).2.1 := by
  have F₁ := ihl st cur
  rcases h₁ : linearize_expr st cur l with ⟨st₁, cur₁, la⟩
  rw [h₁] at F₁
  dsimp only at F₁ ⊢
  have F₂ := ihr st₁ cur₁
  rcases h₂ : linearize_expr st₁ cur₁ r with ⟨st₂, cur₂, ra⟩
  rw [h₂] at F₂
  dsimp only at F₂ ⊢
  dsimp only [fresh_tmp]
  exact lin_frame_ext _ rfl rfl rfl
    (lin_frame_trans F₁ (lin_frame_trans F₂
      (lin_frame_append_stmt st₂ cur₂ (f ⟨st₂.vf, none⟩ la ra))))

set_option maxHeartbeats 1000000 in
mutual

/-- Every statement lowering satisfies the frame. -/
theorem lin_frame_stmt (st : LinState) (cur : Nat) (s : DStmt) :
    lin_frame st cur (linearize_stmt st cur s).1 (linearize_stmt st cur s).2 := by
  cases s with
  | expr e =>
    have F := lin_frame_expr st cur e
    rcases h : linearize_expr st cur e with ⟨st₁, cur₁, a⟩
    rw [h] at F
    dsimp only at F
    simp only [linearize_stmt]
    rw [h]
    exact F
  | tellOk n => exact lin_frame_append_stmt st cur _
  | tellNotOk n => exact lin_frame_append_stmt st cur _
  | command t => exact lin_frame_append_stmt st cur _
  | letS v e =>
    have F := lin_frame_expr st cur e
    rcases h : linearize_expr st cur e with ⟨st₁, cur₁, a⟩
    rw [h] at F
    dsimp only at F
    simp only [linearize_stmt]
    rw [h]
    exact lin_frame_trans F (lin_frame_append_stmt st₁ cur₁ _)
termination_by sizeOf s
decreasing_by all_goals (simp_wf; try omega)

/-- Every statement-list lowering satisfies the frame. -/
theorem lin_frame_stmts (st : LinState) (cur : Nat) (l : List DStmt) :
    lin_frame st cur (linearize_stmts st cur l).1 (linearize_stmts st cur l).2 := by
  cases l with
  | nil => exact lin_frame_refl st cur
  | cons s rest =>
    have F := lin_frame_stmt st cur s
    rcases h : linearize_stmt st cur s with ⟨st₁, cur₁⟩
    rw [h] at F
    dsimp only at F
    simp only [linearize_stmts]
    rw [h]
    exact lin_frame_trans F (lin_frame_stmts st₁ cur₁ rest)
termination_by sizeOf l
decreasing_by all_goals (simp_wf; try omega)

/-- Every expression lowering satisfies the frame. -/
theorem lin_frame_expr (st : LinState) (cur : Nat) (e : DExpr) :
    lin_frame st cur (linearize_expr st cur e).1 (linearize_expr st cur e).2.1 := by
  cases e with
  | litUnit => exact lin_frame_refl st cur
  | litBool b => exact lin_frame_refl st cur
  | litInt i => exact lin_frame_refl st cur
  | variable_ x => exact lin_frame_refl st cur
  | bundle ss e =>
    have F := lin_frame_stmts st cur ss
    rcases h : linearize_stmts st cur ss with ⟨st₁, cur₁⟩
    rw [h] at F
    dsimp only at F
    simp only [linearize_expr]
    rw [h]
    exact lin_frame_trans F (lin_frame_expr st₁ cur₁ e)
  | plus l r =>
    exact binary_frame l r (fun s k => lin_frame_expr s k l)
      (fun s k => lin_frame_expr s k r) st cur
      (fun v la ra => .assign v (.binary .plus la ra))
  | minus l r =>
    exact binary_frame l r (fun s k => lin_frame_expr s k l)
      (fun s k => lin_frame_expr s k r) st cur
      (fun v la ra => .assign v (.binary .minus la ra))
  | times l r =>
    exact binary_frame l r (fun s k => lin_frame_expr s k l)
      (fun s k => lin_frame_expr s k r) st cur
      (fun v la ra => .assign v (.binary .times la ra))
  | divide l r =>
    exact binary_frame l r (fun s k => lin_frame_expr s k l)
      (fun s k => lin_frame_expr s k r) st cur
      (fun v la ra => .assign v (.binary .divide la ra))
  | eq l r =>
    exact binary_frame l r (fun s k => lin_frame_expr s k l)
      (fun s k => lin_frame_expr s k r) st cur
      (fun v la ra => .assign v (.cmp .eqC la ra))
  | ifE cond thn els =>
    rw [linearize_expr_ifE_eq]
    cases cond
    case eq l r =>
      dsimp only
      have F₁ := lin_frame_expr st cur l
      rcases h₁ : linearize_expr st cur l with ⟨st₁, cur₁, la⟩
      rw [h₁] at F₁
      dsimp only at F₁ ⊢
      have F₂ := lin_frame_expr st₁ cur₁ r
      rcases h₂ : linearize_expr st₁ cur₁ r with ⟨st₂, cur₂, ra⟩
      rw [h₂] at F₂
      dsimp only at F₂ ⊢
      exact lin_frame_trans F₁ (lin_frame_trans F₂
        (if_tail_frame thn els (fun s k => lin_frame_expr s k thn)
          (fun s k => lin_frame_expr s k els) st₂ cur₂ (.cmp .eqC la ra)))
    case litUnit =>
      dsimp only
      have F₁ := lin_frame_expr st cur (.litUnit)
      rcases h : linearize_expr st cur (.litUnit) with ⟨st₁, cur₁, a⟩
      rw [h] at F₁
      dsimp only at F₁ ⊢
      exact lin_frame_trans F₁ (if_tail_frame thn els
        (fun s k => lin_frame_expr s k thn)
        (fun s k => lin_frame_expr s k els) st₁ cur₁ (.atm a))
    case bundle ss e' =>
      dsimp only
      have F₁ := lin_frame_expr st cur (.bundle ss e')
      rcases h : linearize_expr st cur (.bundle ss e') with ⟨st₁, cur₁, a⟩
      rw [h] at F₁
      dsimp only at F₁ ⊢
      exact lin_frame_trans F₁ (if_tail_frame thn els
        (fun s k => lin_frame_expr s k thn)
        (fun s k => lin_frame_expr s k els) st₁ cur₁ (.atm a))
    case litBool b =>
      dsimp only
      have F₁ := lin_frame_expr st cur (.litBool b)
      rcases h : linearize_expr st cur (.litBool b) with ⟨st₁, cur₁, a⟩
      rw [h] at F₁
      dsimp only at F₁ ⊢
      exact lin_frame_trans F₁ (if_tail_frame thn els
        (fun s k => lin_frame_expr s k thn)
        (fun s k => lin_frame_expr s k els) st₁ cur₁ (.atm a))
    case litInt i =>
      dsimp only
      have F₁ := lin_frame_expr st cur (.litInt i)
      rcases h : linearize_expr st cur (.litInt i) with ⟨st₁, cur₁, a⟩
      rw [h] at F₁
      dsimp only at F₁ ⊢
      exact lin_frame_trans F₁ (if_tail_frame thn els
        (fun s k => lin_frame_expr s k thn)
        (fun s k => lin_frame_expr s k els) st₁ cur₁ (.atm a))
    case variable_ x =>
      dsimp only
      have F₁ := lin_frame_expr st cur (.variable_ x)
      rcases h : linearize_expr st cur (.variable_ x) with ⟨st₁, cur₁, a⟩
      rw [h] at F₁
      dsimp only at F₁ ⊢
      exact lin_frame_trans F₁ (if_tail_frame thn els
        (fun s k => lin_frame_expr s k thn)
        (fun s k => lin_frame_expr s k els) st₁ cur₁ (.atm a))
    case plus l' r' =>
      dsimp only
      have F₁ := lin_frame_expr st cur (.plus l' r')
      rcases h : linearize_expr st cur (.plus l' r') with ⟨st₁, cur₁, a⟩
      rw [h] at F₁
      dsimp only at F₁ ⊢
      exact lin_frame_trans F₁ (if_tail_frame thn els
        (fun s k => lin_frame_expr s k thn)
        (fun s k => lin_frame_expr s k els) st₁ cur₁ (.atm a))
    case minus l' r' =>
      dsimp only
      have F₁ := lin_frame_expr st cur (.minus l' r')
      rcases h : linearize_expr st cur (.minus l' r') with ⟨st₁, cur₁, a⟩
      rw [h] at F₁
      dsimp only at F₁ ⊢
      exact lin_frame_trans F₁ (if_tail_frame thn els
        (fun s k => lin_frame_expr s k thn)
        (fun s k => lin_frame_expr s k els) st₁ cur₁ (.atm a))
    case times l' r' =>
      dsimp only
      have F₁ := lin_frame_expr st cur (.times l' r')
      rcases h : linearize_expr st cur (.times l' r') with ⟨st₁, cur₁, a⟩
      rw [h] at F₁
      dsimp only at F₁ ⊢
      exact lin_frame_trans F₁ (if_tail_frame thn els
        (fun s k => lin_frame_expr s k thn)
        (fun s k => lin_frame_expr s k els) st₁ cur₁ (.atm a))
    case divide l' r' =>
      dsimp only
      have F₁ := lin_frame_expr st cur (.divide l' r')
      rcases h : linearize_expr st cur (.divide l' r') with ⟨st₁, cur₁, a⟩
      rw [h] at F₁
      dsimp only at F₁ ⊢
      exact lin_frame_trans F₁ (if_tail_frame thn els
        (fun s k => lin_frame_expr s k thn)
        (fun s k => lin_frame_expr s k els) st₁ cur₁ (.atm a))
    case ifE c' t' e' =>
      dsimp only
      have F₁ := lin_frame_expr st cur (.ifE c' t' e')
      rcases h : linearize_expr st cur (.ifE c' t' e') with ⟨st₁, cur₁, a⟩
      rw [h] at F₁
      dsimp only at F₁ ⊢
      exact lin_frame_trans F₁ (if_tail_frame thn els
        (fun s k => lin_frame_expr s k thn)
        (fun s k => lin_frame_expr s k els) st₁ cur₁ (.atm a))
termination_by sizeOf e
decreasing_by all_goals (simp_wf; try omega)

end

/-- Allocating a fresh node under `top_inv` yields a valid lowering
state at that node. -/
theorem lin_inv_add_node (st : LinState) (htop : top_inv st) :
    lin_inv (add_node st).1 (add_node st).2 := by
  obtain ⟨hsrc, hevs⟩ := htop
  refine ⟨by simp [add_node], ?_, ⟨?_, ?_⟩, ?_⟩
  · dsimp only [add_node]
    exact edges_from_nil_of_ne (fun d hd => by have := hsrc d hd; omega)
  · intro e he
    dsimp only [add_node] at he ⊢
    simp only [List.length_append, List.length_singleton]
    have := hsrc e he
    omega
  · intro ev hev
    dsimp only [add_node] at hev ⊢
    obtain ⟨hs, hb⟩ := hevs ev hev
    refine ⟨hs, fun n hn => ?_⟩
    simp only [List.length_append, List.length_singleton]
    have := hb n hn
    omega
  · intro ev hev
    dsimp only [add_node] at hev ⊢
    intro hmem
    have := (hevs ev hev).2 _ hmem
    omega

/-- Lowering one test preserves graph well-formedness. -/
theorem linearize_test_top (st : LinState) (stmts : List DStmt) (htop : top_inv st) :
    top_inv (linearize_test st stmts).1 := by
  have hinv := lin_inv_add_node st htop
  have F := lin_frame_stmts (add_node st).1 (add_node st).2 stmts
  obtain ⟨-, -, -, -, hi⟩ := F
  have := hi hinv
  rcases h : linearize_stmts (add_node st).1 (add_node st).2 stmts with ⟨st₂, cur₂⟩
  rw [h] at this
  simp only [linearize_test, add_node]
  rw [show add_node st = ((add_node st).1, (add_node st).2) from rfl] at h
  dsimp only [add_node] at h
  rw [h]
  exact this.2.2.1

/-- Lowering a list of definitions preserves graph well-formedness. -/
theorem linearize_defs_top (ds : List DDef) (st : LinState) (htop : top_inv st) :
    top_inv (linearize_defs st ds).1 := by
  induction ds generalizing st with
  | nil => exact htop
  | cons d rest ih =>
    have h1 := linearize_test_top st d.stmts htop
    rcases h : linearize_test st d.stmts with ⟨st₁, bgn⟩
    rw [h] at h1
    simp only [linearize_defs]
    rw [h]
    dsimp only
    rcases h2 : linearize_defs st₁ rest with ⟨st₂, tests⟩
    have := ih st₁ h1
    rw [h2] at this
    exact this

/-- C6: for every If expression lowered by `linearize` (P3), the branch
block's outgoing edges are exactly one `If(c)` edge to the then-entry and
one `Unless(c)` edge to the else-entry with the identical condition `c`,
and the final blocks of the two branches each have exactly one
`Unconditional` edge to the common join block. The ghost log of the
embedding records one event per lowered If with the blocks involved. -/
theorem linearize_if_shape (p : List DDef × Nat) (ev : IfEvent)
    (hev : ev ∈ (linearize p).log) :
    edges_from (linearize p).edges ev.branch =
      [(ev.branch, ev.thn_entry, .ifJ ev.cond),
       (ev.branch, ev.els_entry, .unlessJ ev.cond)] ∧
    edges_from (linearize p).edges ev.thn_final =
      [(ev.thn_final, ev.join, .unconditional)] ∧
    edges_from (linearize p).edges ev.els_final =
      [(ev.els_final, ev.join, .unconditional)] := by
  have htop0 : top_inv (⟨[], [], p.2, []⟩ : LinState) :=
    ⟨fun e he => absurd he (List.not_mem_nil e),
     fun ev hev => absurd hev (List.not_mem_nil ev)⟩
  have h := linearize_defs_top p.1 _ htop0
  rcases hd : linearize_defs (⟨[], [], p.2, []⟩ : LinState) p.1 with ⟨stf, tests⟩
  rw [hd] at h
  simp only [linearize] at hev ⊢
  rw [hd] at hev ⊢
  dsimp only at hev ⊢
  exact (h.2 ev hev).1

theorem linearize_if_shape_witness :
    ((⟨0, .atm (.litBool false), 1, 2, 1, 2, 3⟩ : IfEvent) ∈
        (linearize c6_input).log) ∧
      edges_from (linearize c6_input).edges 0 =
        [(0, 1, .ifJ (.atm (.litBool false))),
         (0, 2, .unlessJ (.atm (.litBool false)))] ∧
      edges_from (linearize c6_input).edges 1 = [(1, 3, .unconditional)] ∧
      edges_from (linearize c6_input).edges 2 = [(2, 3, .unconditional)] :=
  ⟨by decide, linearize_if_shape c6_input
    ⟨0, .atm (.litBool false), 1, 2, 1, 2, 3⟩ (by decide)⟩

end MCML